import Mathlib

/-!
Verification development for the image compression views of the
`compress_img` Django application (`image_app/views.py`).

The PIL (Pillow) image library is modelled abstractly: an image is a record
of width, height, colour mode and an opaque pixel-content identifier, and the
library primitives (resize, convert, rotate, JPEG encode) are fields of an
environment `PILEnv`.  The functions `process_image_orientation`,
`compress_image`, `compress_image_to_kb` and the quality-clamping step of
`compress_single_image` are translated line by line from the source.  Python
floats appearing in the source (`0.05`, `0.1`, the dimension factors, the
resize ratio) are modelled as exact rationals; Python `int()` applied to a
nonnegative value is floor; Python integers are `Nat`/`Int`.

Instrumentation: the size-targeting compressor additionally returns a trace
of events (one per encode probe, plus one marker after each exhausted scale)
and a flag recording whether the final fallback encode ran.  The trace does
not influence the computed bytes or stats.
-/

namespace CompressImg

/-- Abstract PIL image: dimensions, colour mode string, opaque pixel-content
identifier, and whether its `info` dictionary carries an `exif` entry. -/
structure Img where
  width : Nat
  height : Nat
  mode : String
  data : Nat
  hasExif : Bool
deriving DecidableEq, Repr

/-- Abstract PIL primitives.  `resizeData d w h` is the pixel content of a
LANCZOS resample of content `d` to `w × h`; `convertData` is RGB conversion
of pixel content; `rotateData d a` is rotation of content `d` by `a` degrees
with canvas expansion; `encode i q e` is the JPEG byte stream produced by
`save` with `quality=q`, `optimize=True`, and an `exif` block iff `e`. -/
structure PILEnv where
  resizeData : Nat → Nat → Nat → Nat
  convertData : Nat → Nat
  rotateData : Nat → Nat → Nat
  encode : Img → Int → Bool → List Nat

/-- Python `int(x)` on a nonnegative rational: truncation, i.e. floor. -/
def intFloor (q : ℚ) : Nat := (Int.floor q).toNat

/-- Exact rational multiplication, written through `mkRat` so that it
evaluates inside the kernel (`Rat.mul` itself does not reduce there); proved
equal to `*` in `ratMul_eq`. -/
def ratMul (a b : ℚ) : ℚ := mkRat (a.num * b.num) (a.den * b.den)

/-- Exact rational division for a nonnegative divisor, written through
`mkRat` so that it evaluates inside the kernel; proved equal to `/` in
`ratDiv_eq`.  A zero divisor yields 0, as for `Rat` division. -/
def ratDiv (a b : ℚ) : ℚ := mkRat (a.num * (b.den : Int)) (a.den * b.num.toNat)

/-- `image.resize((w, h), Image.Resampling.LANCZOS)`: fresh image of the given
size, same mode, resampled content, `info` (hence exif presence) preserved. -/
def resizeImg (env : PILEnv) (i : Img) (w h : Nat) : Img :=
  ⟨w, h, i.mode, env.resizeData i.data w h, i.hasExif⟩

/-- `image.convert('RGB')`: fresh RGB image, same size, converted content. -/
def convertRGB (env : PILEnv) (i : Img) : Img :=
  ⟨i.width, i.height, "RGB", env.convertData i.data, i.hasExif⟩

/-- The mode test `image.mode in ('RGBA', 'P')` guarding RGB conversion. -/
def needsConvert (i : Img) : Bool := i.mode = "RGBA" || i.mode = "P"

/-- `image.rotate(180, expand=True)`: dimensions preserved. -/
def rotate180 (env : PILEnv) (i : Img) : Img :=
  ⟨i.width, i.height, i.mode, env.rotateData i.data 180, i.hasExif⟩

/-- `image.rotate(270, expand=True)`: width and height swap. -/
def rotate270 (env : PILEnv) (i : Img) : Img :=
  ⟨i.height, i.width, i.mode, env.rotateData i.data 270, i.hasExif⟩

/-- `image.rotate(90, expand=True)`: width and height swap. -/
def rotate90 (env : PILEnv) (i : Img) : Img :=
  ⟨i.height, i.width, i.mode, env.rotateData i.data 90, i.hasExif⟩

/-! ## process_image_orientation (views.py lines 32-53) -/

/-- Input to the orientation normalizer.  `hasGetexif` is the
`hasattr(image, '_getexif')` test; `getexif` is the outcome of calling
`image._getexif()` — an exception (`Except.error`), a falsy result (`none`:
`None` or an empty dict), or a tag dictionary as an association list;
`innerFails` records whether an exception is raised inside the `try` block
while re-reading and mapping the tags (malformed metadata). -/
structure ExifImg where
  img : Img
  hasGetexif : Bool
  getexif : Except String (Option (List (Nat × Nat)))
  innerFails : Bool

/-- The EXIF tag key whose name is `Orientation` (found by the loop over
`ExifTags.TAGS`). -/
def orientationTag : Nat := 274

/-- The orientation transform mapping of views.py lines 43-49 (the
`if/elif` chain): tag value 3 rotates 180, 6 rotates 270, 8 rotates 90,
everything else (an absent tag included) leaves the image as is. -/
def applyOrientation (env : PILEnv) (i : Img) : Option Nat → Img
  | none => i
  | some v =>
    if v = 3 then rotate180 env i
    else if v = 6 then rotate270 env i
    else if v = 8 then rotate90 env i
    else i

/-- `process_image_orientation` (views.py lines 32-53).  The guard on line 34
calls `image._getexif()` outside the `try` block, so an exception from that
call propagates (`Except.error`).  Inside the `try`, any exception is caught,
logged, and the image returned unmodified. -/
def process_image_orientation (env : PILEnv) (e : ExifImg) : Except String Img :=
  if !e.hasGetexif then Except.ok e.img
  else
    match e.getexif with
    | Except.error m => Except.error m
    | Except.ok none => Except.ok e.img
    | Except.ok (some d) =>
      if e.innerFails then Except.ok e.img
      else Except.ok (applyOrientation env e.img (d.lookup orientationTag))

/-! ## compress_image (views.py lines 55-91) -/

/-- The stats dictionary returned by `compress_image`. -/
structure CIStats where
  final_width : Nat
  final_height : Nat
  compressed_size : Nat
deriving DecidableEq, Repr

/-- Result of `compress_image`, instrumented with the image value that was
handed to `save` (the encoder input), which the source does not return. -/
structure CIResult where
  bytes : List Nat
  stats : CIStats
  encodedImg : Img
deriving Repr

/-- `compress_image` (views.py lines 55-91): compute
`ratio = min(max_dimension/width, max_dimension/height)`, resample to
`(int(width*ratio), int(height*ratio))` when `ratio < 1`, convert RGBA/P to
RGB, then encode once at the given quality. -/
def compress_image (env : PILEnv) (image : Img) (max_dimension : Nat)
    (quality : Int) (preserve_exif : Bool) : CIResult :=
  let ratio : ℚ := min (ratDiv (max_dimension : ℚ) (image.width : ℚ))
                       (ratDiv (max_dimension : ℚ) (image.height : ℚ))
  let image1 :=
    if ratio < 1 then
      resizeImg env image (intFloor (ratMul (image.width : ℚ) ratio))
        (intFloor (ratMul (image.height : ℚ) ratio))
    else image
  let image2 := if needsConvert image1 then convertRGB env image1 else image1
  let exifFlag := preserve_exif && image2.hasExif
  let bytes := env.encode image2 quality exifFlag
  ⟨bytes, ⟨image2.width, image2.height, bytes.length⟩, image2⟩

/-! ## compress_single_image quality handling (views.py lines 216-232) -/

/-- The quality clamp of views.py line 221:
`quality = max(10, min(100, quality))`. -/
def clampQuality (q : Int) : Int := max 10 (min 100 q)

/-- The quality path of `compress_single_image` (views.py lines 216-232):
clamp the requested quality and call `compress_image` with it (default
`max_dimension = 3000`).  The optional orientation step does not touch the
quality and is omitted here. -/
def compress_single_image_quality_path (env : PILEnv) (image : Img)
    (requested : Int) (preserve_exif : Bool) : CIResult :=
  compress_image env image 3000 (clampQuality requested) preserve_exif

/-! ## compress_image_to_kb (views.py lines 93-198) -/

/-- The stats dictionary returned by `compress_image_to_kb`. -/
structure KBStats where
  final_width : Nat
  final_height : Nat
  compressed_size : Nat
  quality_used : Int
  dimension_factor : ℚ
deriving DecidableEq, Repr

/-- One encode probe of the binary search: the working image handed to
`save`, the dimension factor under which it was built, the quality and exif
flag of the `save` call, and the bytes it produced. -/
structure Probe where
  img : Img
  factor : ℚ
  quality : Int
  exif : Bool
  bytes : List Nat
deriving DecidableEq, Repr

/-- The stats dictionary a probe gives rise to (views.py lines 150-156 and
162-168 build exactly this record from the probe's data). -/
def probeStats (p : Probe) : KBStats :=
  ⟨p.img.width, p.img.height, p.bytes.length, p.quality, p.factor⟩

/-- Python `abs(compressed_size - target_size_bytes)` on integers. -/
def byteDelta (size target : Nat) : Nat := ((size : Int) - (target : Int)).natAbs

/-- The tight acceptance test of views.py line 149:
`abs(compressed_size - target_size_bytes) <= target_size_bytes * 0.05`,
exactly, with the denominator cleared (`delta <= target * 5/100` iff
`100 * delta <= 5 * target`); the equivalence with the rational-valued
comparison is `tightOkB_iff`. -/
def tightOkB (size target : Nat) : Bool :=
  decide (100 * byteDelta size target ≤ 5 * target)

/-- The relaxed acceptance test of views.py line 180:
`abs(best_stats['compressed_size'] - target_size_bytes) <= target_size_bytes * 0.1`,
exactly, with the denominator cleared; the equivalence with the
rational-valued comparison is `relaxedOkB_iff`. -/
def relaxedOkB (s : KBStats) (target : Nat) : Bool :=
  decide (100 * byteDelta s.compressed_size target ≤ 10 * target)

/-- A candidate: bytes together with their stats (the pair
`best_result, best_stats`). -/
abbrev Cand := List Nat × KBStats

/-- The best-so-far update of views.py lines 159-168: replace only when there
is no candidate yet or the new delta is strictly smaller. -/
def updateBest (bytes : List Nat) (s : KBStats) (target : Nat) :
    Option Cand → Option Cand
  | none => some (bytes, s)
  | some (bb, bs) =>
    if byteDelta s.compressed_size target < byteDelta bs.compressed_size target
    then some (bytes, s) else some (bb, bs)

/-- Outcome of the per-scale binary search: an immediate (tight-acceptance)
return, or fall-through with the updated best candidate. -/
inductive QOut where
  | ret (b : List Nat) (s : KBStats)
  | cont (best : Option Cand)
deriving DecidableEq, Repr

/-- The probe one iteration of views.py lines 131-146 performs:
`current_quality = (low + high) // 2` and one `save` at that quality.  The
stats dictionary this probe gives rise to (lines 150-156 and 162-168 build
the identical record) is `probeStats` of it. -/
def qProbe (env : PILEnv) (exifFlag : Bool) (working : Img) (factor : ℚ)
    (low high : Nat) : Probe :=
  ⟨working, factor, (((low + high) / 2 : Nat) : Int), exifFlag,
   env.encode working (((low + high) / 2 : Nat) : Int) exifFlag⟩

/-- The range narrowing of views.py lines 170-174: on overshoot
(`compressed_size > target_size_bytes`) set `high = quality - 1`, otherwise
`low = quality + 1`. -/
def qNext (target : Nat) (p : Probe) (low high : Nat) : Nat × Nat :=
  if target < p.bytes.length then (low, (low + high) / 2 - 1)
  else ((low + high) / 2 + 1, high)

/-- The binary-search quality loop of views.py lines 131-177, for a fixed
working image and dimension factor.  `fuel` is the remaining number of
iterations of `range(max_iterations)`.  Returns the outcome and the list of
probes performed, in order.  Quality arithmetic is on `Nat`; on every
reachable state `10 ≤ low` so `q - 1` never differs from the Python value. -/
def qualityLoop (env : PILEnv) (exifFlag : Bool) (working : Img) (factor : ℚ)
    (target : Nat) : Nat → Nat → Nat → Option Cand → QOut × List Probe
  | _, _, 0, best => (QOut.cont best, [])
  | low, high, fuel + 1, best =>
    let p := qProbe env exifFlag working factor low high
    if tightOkB p.bytes.length target then
      (QOut.ret p.bytes (probeStats p), [p])
    else
      let best1 := updateBest p.bytes (probeStats p) target best
      let lh := qNext target p low high
      if lh.2 ≤ lh.1 then (QOut.cont best1, [p])
      else
        let rest := qualityLoop env exifFlag working factor target lh.1 lh.2 fuel best1
        (rest.1, p :: rest.2)

/-- Trace events of the size-targeting search: an encode probe, or a marker
that the probes of one scale finished without tight acceptance (recording the
global best candidate at that point). -/
inductive Ev where
  | probe (p : Probe)
  | scaleEnd (f : ℚ) (best : Option Cand)
deriving DecidableEq, Repr

/-- Outcome of the scale loop: an early return (tight or relaxed acceptance),
or exhaustion of all scale factors with the final best candidate. -/
inductive SOut where
  | returned (b : List Nat) (s : KBStats)
  | exhausted (best : Option Cand)
deriving DecidableEq, Repr

/-- The working image of one scale iteration (views.py lines 116-125):
resample to `(int(width*factor), int(height*factor))` when the factor is
below 1, else `copy()` — in this value model a copy is the same image
value. -/
def workingImg (env : PILEnv) (image : Img) (f : ℚ) : Img :=
  if f < 1 then
    resizeImg env image (intFloor (ratMul (image.width : ℚ) f))
      (intFloor (ratMul (image.height : ℚ) f))
  else image

/-- The scale loop of views.py lines 116-181.  For each dimension factor:
build the working image, run the quality loop with `low = 10`, `high = 95`,
and afterwards return the global best immediately when it is truthy
(nonempty bytes) and within the relaxed band. -/
def scaleLoop (env : PILEnv) (exifFlag : Bool) (image : Img)
    (target maxIter : Nat) : List ℚ → Option Cand → SOut × List Ev
  | [], best => (SOut.exhausted best, [])
  | f :: fs, best =>
    let working := workingImg env image f
    match qualityLoop env exifFlag working f target 10 95 maxIter best with
    | (QOut.ret b s, tr) => (SOut.returned b s, tr.map Ev.probe)
    | (QOut.cont best1, tr) =>
      let evs := tr.map Ev.probe ++ [Ev.scaleEnd f best1]
      match best1 with
      | some (bb, bs) =>
        if !bb.isEmpty && relaxedOkB bs target then (SOut.returned bb bs, evs)
        else
          let rest := scaleLoop env exifFlag image target maxIter fs (some (bb, bs))
          (rest.1, evs ++ rest.2)
      | none =>
        let rest := scaleLoop env exifFlag image target maxIter fs none
        (rest.1, evs ++ rest.2)

/-- The dimension reduction list of views.py line 114:
`[1.0, 0.9, 0.8, 0.7, 0.6, 0.5]`, written through `mkRat` so that it
evaluates inside the kernel; `dimension_reductions_eq` restates it with
`/`. -/
def dimension_reductions : List ℚ :=
  [1, mkRat 9 10, mkRat 8 10, mkRat 7 10, mkRat 6 10, mkRat 5 10]

/-- Result of `compress_image_to_kb`, instrumented with the event trace and
a flag recording whether the final fallback encode (lines 188-198) ran. -/
structure KBResult where
  bytes : List Nat
  stats : KBStats
  trace : List Ev
  fellback : Bool
deriving Repr

/-- The upfront RGB conversion of views.py lines 102-104: convert when the
mode is RGBA or P, else keep the image. -/
def convImg (env : PILEnv) (i : Img) : Img :=
  if needsConvert i then convertRGB env i else i

/-- The fallback result of views.py lines 188-198: one unscaled encode of the
(converted) image at quality `min_quality = 10`, no exif, stats built from
that image and factor 1.0. -/
def kbFallback (env : PILEnv) (image : Img) (tr : List Ev) : KBResult :=
  let fbBytes := env.encode image 10 false
  ⟨fbBytes, ⟨image.width, image.height, fbBytes.length, 10, 1⟩, tr, true⟩

/-- `compress_image_to_kb` (views.py lines 93-198): convert RGBA/P to RGB
upfront, search the six dimension factors with a per-scale binary quality
search between 10 and 95, and fall back to an unscaled quality-10 encode only
when no truthy best candidate exists at the end. -/
def compress_image_to_kb (env : PILEnv) (image0 : Img) (target_size_kb : Nat)
    (preserve_exif : Bool) (max_iterations : Nat) : KBResult :=
  let target := target_size_kb * 1024
  let image := convImg env image0
  let exifFlag := preserve_exif && image.hasExif
  match scaleLoop env exifFlag image target max_iterations dimension_reductions none with
  | (SOut.returned b s, tr) => ⟨b, s, tr, false⟩
  | (SOut.exhausted best, tr) =>
    match best with
    | some (bb, bs) =>
      if !bb.isEmpty then ⟨bb, bs, tr, false⟩
      else kbFallback env image tr
    | none => kbFallback env image tr

/-- The probes of a trace, in order. -/
def probesOf (evs : List Ev) : List Probe :=
  evs.filterMap fun e => match e with
    | Ev.probe p => some p
    | Ev.scaleEnd _ _ => none

/-- The dimension factors of the scale-finished markers of a trace, in
order. -/
def scaleEndsOf (evs : List Ev) : List ℚ :=
  evs.filterMap fun e => match e with
    | Ev.probe _ => none
    | Ev.scaleEnd f _ => some f

/-- Modelled from the spec: the rounding function named by the sentence
"output width/height equal `round(origDim * f)`" — round to nearest integer
(halves up).  The source instead applies Python `int()`, i.e. truncation. -/
def specRound (q : ℚ) : Int := round q

/-- Modelled from the spec: the 3-channel colour modes of the sentence
"`DecodedImage` mode is normalized to a 3-channel color mode before any JPEG
encode" (PIL's 3-channel modes). -/
def threeChannelMode (m : String) : Bool :=
  m = "RGB" || m = "YCbCr" || m = "HSV" || m = "LAB"


/-! ## Heap model (for the no-mutation claim)

Python variables hold references to PIL image objects.  To express that the
compressors never mutate the caller's image, the same code is embedded once
more over an explicit object store: references are naturals, and every PIL
primitive the source calls (`resize`, `convert`, `copy`) allocates a fresh
object, exactly as Pillow's implementations do.  The quality loop performs no
image operation besides `save` (which writes to a `BytesIO` buffer, not to
the store), so the pure `qualityLoop` is reused. -/

/-- An object store of PIL images: `next` is the first unused reference. -/
structure Heap where
  next : Nat
  get : Nat → Img

/-- Allocate a fresh image object, returning its reference. -/
def Heap.alloc (h : Heap) (i : Img) : Nat × Heap :=
  (h.next, ⟨h.next + 1, fun r => if r = h.next then i else h.get r⟩)

/-- Store-passing `compress_image` (views.py lines 55-91): `resize` and
`convert` each allocate a fresh object; the caller's object is only read. -/
def compress_imageH (env : PILEnv) (h : Heap) (r : Nat) (max_dimension : Nat)
    (quality : Int) (preserve_exif : Bool) : (List Nat × CIStats) × Heap :=
  let img := h.get r
  let ratio : ℚ := min (ratDiv (max_dimension : ℚ) (img.width : ℚ))
                       (ratDiv (max_dimension : ℚ) (img.height : ℚ))
  let rh1 :=
    if ratio < 1 then
      Heap.alloc h (resizeImg env img (intFloor (ratMul (img.width : ℚ) ratio))
        (intFloor (ratMul (img.height : ℚ) ratio)))
    else (r, h)
  let img1 := rh1.2.get rh1.1
  let rh2 := if needsConvert img1 then Heap.alloc rh1.2 (convertRGB env img1) else rh1
  let img2 := rh2.2.get rh2.1
  let exifFlag := preserve_exif && img2.hasExif
  let bytes := env.encode img2 quality exifFlag
  ((bytes, ⟨img2.width, img2.height, bytes.length⟩), rh2.2)

/-- Store-passing scale loop of views.py lines 116-181: each scale allocates
one working image (`resize` below factor 1, `copy()` at factor 1 — Pillow's
`copy` also returns a fresh object with equal content). -/
def scaleLoopH (env : PILEnv) (exifFlag : Bool) (imgRef : Nat)
    (target maxIter : Nat) : List ℚ → Heap → Option Cand → SOut × Heap
  | [], h, best => (SOut.exhausted best, h)
  | f :: fs, h, best =>
    let wh := Heap.alloc h (workingImg env (h.get imgRef) f)
    match qualityLoop env exifFlag (wh.2.get wh.1) f target 10 95 maxIter best with
    | (QOut.ret b s, _) => (SOut.returned b s, wh.2)
    | (QOut.cont best1, _) =>
      match best1 with
      | some (bb, bs) =>
        if !bb.isEmpty && relaxedOkB bs target then (SOut.returned bb bs, wh.2)
        else scaleLoopH env exifFlag imgRef target maxIter fs wh.2 (some (bb, bs))
      | none => scaleLoopH env exifFlag imgRef target maxIter fs wh.2 none

/-- Store-passing `compress_image_to_kb` (views.py lines 93-198): the upfront
RGB conversion allocates; afterwards only working copies are allocated and
the caller's object is never written. -/
def compress_image_to_kbH (env : PILEnv) (h : Heap) (imgRef : Nat)
    (target_size_kb : Nat) (preserve_exif : Bool) (max_iterations : Nat) :
    (List Nat × KBStats) × Heap :=
  let target := target_size_kb * 1024
  let img0 := h.get imgRef
  let rh1 := if needsConvert img0 then Heap.alloc h (convertRGB env img0) else (imgRef, h)
  let image := rh1.2.get rh1.1
  let exifFlag := preserve_exif && image.hasExif
  match scaleLoopH env exifFlag rh1.1 target max_iterations dimension_reductions rh1.2 none with
  | (SOut.returned b s, h2) => ((b, s), h2)
  | (SOut.exhausted best, h2) =>
    match best with
    | some (bb, bs) =>
      if !bb.isEmpty then ((bb, bs), h2)
      else
        let img := h2.get rh1.1
        let fbBytes := env.encode img 10 false
        ((fbBytes, ⟨img.width, img.height, fbBytes.length, 10, 1⟩), h2)
    | none =>
      let img := h2.get rh1.1
      let fbBytes := env.encode img 10 false
      ((fbBytes, ⟨img.width, img.height, fbBytes.length, 10, 1⟩), h2)

/-! ## Concrete fixtures used by witnesses and counterexamples -/

/-- Test environment whose encoder always emits a single byte. -/
def env1 : PILEnv :=
  ⟨fun d _ _ => d + 1, fun d => d + 10, fun d a => d * 1000 + a, fun _ _ _ => [0]⟩

/-- Test environment whose encoder always emits the empty byte string. -/
def envNil : PILEnv :=
  ⟨fun d _ _ => d + 1, fun d => d + 10, fun d a => d * 1000 + a, fun _ _ _ => []⟩

/-- Test environment whose encoder always emits three bytes. -/
def env3 : PILEnv :=
  ⟨fun d _ _ => d + 1, fun d => d + 10, fun d a => d * 1000 + a, fun _ _ _ => [0, 0, 0]⟩

/-- Test environment whose encoder records the quality it received as the
single byte of its output. -/
def envQ : PILEnv :=
  ⟨fun d _ _ => d + 1, fun d => d + 10, fun d a => d * 1000 + a,
   fun _ q _ => [q.toNat]⟩

/-- A small RGB test image. -/
def imgRGB : Img := ⟨4, 4, "RGB", 0, false⟩

/-- A small greyscale (single-channel) test image. -/
def imgL : Img := ⟨10, 3, "L", 0, false⟩

/-- A small RGBA test image. -/
def imgRGBA : Img := ⟨4, 4, "RGBA", 0, false⟩

/-- A test image store holding `imgRGB` at reference 0. -/
def heap0 : Heap := ⟨1, fun _ => imgRGB⟩

/-! ## Bridging lemmas: the kernel-evaluable arithmetic equals the
rational arithmetic of the source -/

theorem ratMul_eq (a b : ℚ) : ratMul a b = a * b := by
  rw [ratMul, Rat.mkRat_eq_div]
  push_cast
  conv_rhs => rw [← Rat.num_div_den a, ← Rat.num_div_den b]
  rw [div_mul_div_comm]

theorem ratDiv_eq (a b : ℚ) (hb : 0 ≤ b) : ratDiv a b = a / b := by
  have haden : ((a.den : ℚ)) ≠ 0 := by
    exact_mod_cast a.den_nz
  rcases eq_or_lt_of_le hb with hb0 | hbpos
  · rw [← hb0, ratDiv]
    norm_num [Rat.mkRat_eq_div]
  · have hnum : 0 < b.num := Rat.num_pos.mpr hbpos
    rw [ratDiv, Rat.mkRat_eq_div]
    push_cast [Int.toNat_of_nonneg hnum.le]
    rw [show ((b.num.toNat : ℕ) : ℚ) = (b.num : ℚ) from by
      exact_mod_cast Int.toNat_of_nonneg hnum.le]
    have hden : ((b.den : ℚ)) ≠ 0 := by
      exact_mod_cast b.den_nz
    have hbne : b ≠ 0 := ne_of_gt hbpos
    have h1 : (a.num : ℚ) = a * a.den := (div_eq_iff haden).mp (Rat.num_div_den a)
    have h2 : (b.num : ℚ) = b * b.den := (div_eq_iff hden).mp (Rat.num_div_den b)
    rw [h1, h2]
    have hmul : (a.den : ℚ) * ((b : ℚ) * b.den) ≠ 0 :=
      mul_ne_zero haden (mul_ne_zero hbne hden)
    rw [div_eq_div_iff hmul hbne]
    ring

theorem tightOkB_iff (size target : Nat) :
    tightOkB size target = true ↔
      (byteDelta size target : ℚ) ≤ (target : ℚ) * (5 / 100) := by
  rw [tightOkB, decide_eq_true_eq]
  rw [show (target : ℚ) * (5 / 100) = (5 * target : ℚ) / 100 by ring]
  rw [le_div_iff₀ (by norm_num : (0 : ℚ) < 100)]
  constructor
  · intro h
    have : ((100 * byteDelta size target : ℕ) : ℚ) ≤ ((5 * target : ℕ) : ℚ) := by
      exact_mod_cast h
    push_cast at this
    linarith
  · intro h
    have : ((100 * byteDelta size target : ℕ) : ℚ) ≤ ((5 * target : ℕ) : ℚ) := by
      push_cast
      linarith
    exact_mod_cast this

theorem relaxedOkB_iff (s : KBStats) (target : Nat) :
    relaxedOkB s target = true ↔
      (byteDelta s.compressed_size target : ℚ) ≤ (target : ℚ) * (10 / 100) := by
  rw [relaxedOkB, decide_eq_true_eq]
  rw [show (target : ℚ) * (10 / 100) = (10 * target : ℚ) / 100 by ring]
  rw [le_div_iff₀ (by norm_num : (0 : ℚ) < 100)]
  constructor
  · intro h
    have : ((100 * byteDelta s.compressed_size target : ℕ) : ℚ) ≤
        ((10 * target : ℕ) : ℚ) := by
      exact_mod_cast h
    push_cast at this
    linarith
  · intro h
    have : ((100 * byteDelta s.compressed_size target : ℕ) : ℚ) ≤
        ((10 * target : ℕ) : ℚ) := by
      push_cast
      linarith
    exact_mod_cast this

theorem dimension_reductions_eq :
    dimension_reductions = [1, 9/10, 8/10, 7/10, 6/10, 5/10] := by
  rw [dimension_reductions]
  norm_num [Rat.mkRat_eq_div]

/-! ## Trace bookkeeping lemmas -/

theorem probesOf_nil : probesOf [] = [] := rfl

theorem probesOf_cons_probe (p : Probe) (evs : List Ev) :
    probesOf (Ev.probe p :: evs) = p :: probesOf evs := rfl

theorem probesOf_cons_scaleEnd (f : ℚ) (b : Option Cand) (evs : List Ev) :
    probesOf (Ev.scaleEnd f b :: evs) = probesOf evs := rfl

theorem probesOf_append (a b : List Ev) :
    probesOf (a ++ b) = probesOf a ++ probesOf b :=
  List.filterMap_append a b _

theorem probesOf_map_probe (tr : List Probe) :
    probesOf (tr.map Ev.probe) = tr := by
  induction tr with
  | nil => rfl
  | cons p tr ih => simp [probesOf_cons_probe, ih]

theorem scaleEndsOf_nil : scaleEndsOf [] = [] := rfl

theorem scaleEndsOf_append (a b : List Ev) :
    scaleEndsOf (a ++ b) = scaleEndsOf a ++ scaleEndsOf b :=
  List.filterMap_append a b _

theorem scaleEndsOf_map_probe (tr : List Probe) :
    scaleEndsOf (tr.map Ev.probe) = [] := by
  induction tr with
  | nil => rfl
  | cons p tr ih => simp [scaleEndsOf]

theorem scaleEndsOf_single (f : ℚ) (b : Option Cand) :
    scaleEndsOf [Ev.scaleEnd f b] = [f] := rfl

theorem probesOf_scaleEnd_append (f : ℚ) (b : Option Cand) (evs : List Ev) :
    probesOf ([Ev.scaleEnd f b] ++ evs) = probesOf evs := rfl

/-! ## Quality-loop lemmas -/

theorem updateBest_spec (bytes : List Nat) (s : KBStats) (t : Nat)
    (best : Option Cand) :
    ∃ c, updateBest bytes s t best = some c ∧
      (c = (bytes, s) ∨ best = some c) ∧
      byteDelta c.2.compressed_size t ≤ byteDelta s.compressed_size t ∧
      (∀ c0, best = some c0 →
        byteDelta c.2.compressed_size t ≤ byteDelta c0.2.compressed_size t) := by
  match best with
  | none =>
    exact ⟨(bytes, s), rfl, Or.inl rfl, le_refl _, fun c0 h => by cases h⟩
  | some (bb, bs) =>
    by_cases h : byteDelta s.compressed_size t < byteDelta bs.compressed_size t
    · refine ⟨(bytes, s), ?_, Or.inl rfl, le_refl _, ?_⟩
      · simp [updateBest, h]
      · intro c0 hc0
        injection hc0 with hc0
        subst hc0
        exact le_of_lt h
    · refine ⟨(bb, bs), ?_, Or.inr rfl, Nat.le_of_not_lt h, ?_⟩
      · simp [updateBest, h]
      · intro c0 hc0
        injection hc0 with hc0
        subst hc0
        exact le_refl _

theorem qualityLoop_ret (env : PILEnv) (ex : Bool) (w : Img) (f : ℚ) (t : Nat) :
    ∀ fuel low high best b s,
      (qualityLoop env ex w f t low high fuel best).1 = QOut.ret b s →
      ∃ p ∈ (qualityLoop env ex w f t low high fuel best).2,
        tightOkB p.bytes.length t = true ∧ b = p.bytes ∧ s = probeStats p := by
  intro fuel
  induction fuel with
  | zero => intro low high best b s h; cases h
  | succ n ih =>
    intro low high best b s h
    rw [qualityLoop] at h ⊢
    by_cases ht : tightOkB (qProbe env ex w f low high).bytes.length t = true
    · simp only [ht, if_true] at h ⊢
      cases h
      exact ⟨_, List.mem_singleton.mpr rfl, ht, rfl, rfl⟩
    · simp only [ht, if_false, Bool.false_eq_true] at h ⊢
      by_cases hstop :
          (qNext t (qProbe env ex w f low high) low high).2 ≤
          (qNext t (qProbe env ex w f low high) low high).1
      · simp only [hstop, if_true] at h; cases h
      · simp only [hstop, if_false] at h ⊢
        obtain ⟨p, hp, hpt, hb, hs⟩ := ih _ _ _ _ _ h
        exact ⟨p, List.mem_cons_of_mem _ hp, hpt, hb, hs⟩

theorem qualityLoop_tight (env : PILEnv) (ex : Bool) (w : Img) (f : ℚ) (t : Nat) :
    ∀ fuel low high best p,
      p ∈ (qualityLoop env ex w f t low high fuel best).2 →
      tightOkB p.bytes.length t = true →
      (qualityLoop env ex w f t low high fuel best).1 =
        QOut.ret p.bytes (probeStats p) ∧
      (qualityLoop env ex w f t low high fuel best).2.getLast? = some p := by
  intro fuel
  induction fuel with
  | zero => intro low high best p hp; cases hp
  | succ n ih =>
    intro low high best p hp hpt
    rw [qualityLoop] at hp ⊢
    by_cases ht : tightOkB (qProbe env ex w f low high).bytes.length t = true
    · simp only [ht, if_true] at hp ⊢
      rcases List.mem_singleton.mp hp with rfl
      exact ⟨rfl, rfl⟩
    · simp only [ht, if_false, Bool.false_eq_true] at hp ⊢
      by_cases hstop :
          (qNext t (qProbe env ex w f low high) low high).2 ≤
          (qNext t (qProbe env ex w f low high) low high).1
      · simp only [hstop, if_true] at hp
        rcases List.mem_singleton.mp hp with rfl
        exact absurd hpt ht
      · simp only [hstop, if_false] at hp ⊢
        rcases List.mem_cons.mp hp with rfl | hp
        · exact absurd hpt ht
        · obtain ⟨h1, h2⟩ := ih _ _ _ _ hp hpt
          refine ⟨h1, ?_⟩
          rcases hq : (qualityLoop env ex w f t
              (qNext t (qProbe env ex w f low high) low high).1
              (qNext t (qProbe env ex w f low high) low high).2 n
              (updateBest (qProbe env ex w f low high).bytes
                (probeStats (qProbe env ex w f low high)) t best)).2 with _ | ⟨a, l⟩
          · rw [hq] at hp; cases hp
          · rw [hq] at h2
            simp only [hq, List.getLast?_cons_cons]
            exact h2

theorem qualityLoop_cont (env : PILEnv) (ex : Bool) (w : Img) (f : ℚ) (t : Nat) :
    ∀ fuel low high best best',
      (qualityLoop env ex w f t low high fuel best).1 = QOut.cont best' →
      (∀ p ∈ (qualityLoop env ex w f t low high fuel best).2,
        tightOkB p.bytes.length t = false) ∧
      (∀ c, best' = some c →
        (best = some c ∨
          ∃ p ∈ (qualityLoop env ex w f t low high fuel best).2,
            c = (p.bytes, probeStats p)) ∧
        (∀ p ∈ (qualityLoop env ex w f t low high fuel best).2,
          byteDelta c.2.compressed_size t ≤ byteDelta p.bytes.length t) ∧
        (∀ c0, best = some c0 →
          byteDelta c.2.compressed_size t ≤ byteDelta c0.2.compressed_size t)) ∧
      (best' = none → best = none ∧
        (qualityLoop env ex w f t low high fuel best).2 = []) := by
  intro fuel
  induction fuel with
  | zero =>
    intro low high best best' h
    rw [qualityLoop] at h ⊢
    cases h
    refine ⟨fun p hp => absurd hp (List.not_mem_nil p), ?_, ?_⟩
    · intro c hc
      exact ⟨Or.inl hc, fun p hp => absurd hp (List.not_mem_nil p),
        fun c0 hc0 => by rw [hc] at hc0; cases hc0; exact le_refl _⟩
    · intro h0
      exact ⟨h0, rfl⟩
  | succ n ih =>
    intro low high best best' h
    rw [qualityLoop] at h ⊢
    by_cases ht : tightOkB (qProbe env ex w f low high).bytes.length t = true
    · simp only [ht, if_true] at h; cases h
    · simp only [ht, if_false, Bool.false_eq_true] at h ⊢
      obtain ⟨c1, hc1, hc1from, hc1le, hc1base⟩ :=
        updateBest_spec (qProbe env ex w f low high).bytes
          (probeStats (qProbe env ex w f low high)) t best
      by_cases hstop :
          (qNext t (qProbe env ex w f low high) low high).2 ≤
          (qNext t (qProbe env ex w f low high) low high).1
      · simp only [hstop, if_true] at h ⊢
        cases h
        refine ⟨?_, ?_, ?_⟩
        · intro p hp
          rcases List.mem_singleton.mp hp with rfl
          exact Bool.eq_false_iff.mpr ht
        · intro c hc
          rw [hc1] at hc
          injection hc with hc
          subst hc
          refine ⟨?_, ?_, hc1base⟩
          · rcases hc1from with h' | h'
            · exact Or.inr ⟨_, List.mem_singleton.mpr rfl, h'.symm ▸ rfl⟩
            · exact Or.inl h'
          · intro p hp
            rcases List.mem_singleton.mp hp with rfl
            exact hc1le
        · intro h0
          rw [hc1] at h0; cases h0
      · simp only [hstop, if_false] at h ⊢
        obtain ⟨ihA, ihB, ihC⟩ := ih _ _ _ _ h
        refine ⟨?_, ?_, ?_⟩
        · intro p hp
          rcases List.mem_cons.mp hp with rfl | hp
          · exact Bool.eq_false_iff.mpr ht
          · exact ihA p hp
        · intro c hc
          obtain ⟨hfrom, hmin, hbase⟩ := ihB c hc
          refine ⟨?_, ?_, ?_⟩
          · rcases hfrom with h' | ⟨p, hp, hcp⟩
            · rw [hc1] at h'
              injection h' with h'
              subst h'
              rcases hc1from with h'' | h''
              · exact Or.inr ⟨_, List.mem_cons_self _ _, h''.symm ▸ rfl⟩
              · exact Or.inl h''
            · exact Or.inr ⟨p, List.mem_cons_of_mem _ hp, hcp⟩
          · intro p hp
            rcases List.mem_cons.mp hp with rfl | hp
            · calc byteDelta c.2.compressed_size t
                  ≤ byteDelta c1.2.compressed_size t := hbase c1 hc1
                _ ≤ byteDelta
                      (probeStats (qProbe env ex w f low high)).compressed_size
                      t := hc1le
                _ = byteDelta (qProbe env ex w f low high).bytes.length t := rfl
            · exact hmin p hp
          · intro c0 hc0
            exact le_trans (hbase c1 hc1) (hc1base c0 hc0)
        · intro h0
          obtain ⟨h1, _⟩ := ihC h0
          rw [hc1] at h1; cases h1

theorem qualityLoop_probes (env : PILEnv) (ex : Bool) (w : Img) (f : ℚ) (t : Nat) :
    ∀ fuel low high best,
      ∀ p ∈ (qualityLoop env ex w f t low high fuel best).2,
        p.img = w ∧ p.factor = f ∧ p.exif = ex ∧
        p.bytes = env.encode w p.quality ex := by
  intro fuel
  induction fuel with
  | zero => intro low high best p hp; cases hp
  | succ n ih =>
    intro low high best p hp
    rw [qualityLoop] at hp
    by_cases ht : tightOkB (qProbe env ex w f low high).bytes.length t = true
    · simp only [ht, if_true] at hp
      rcases List.mem_singleton.mp hp with rfl
      exact ⟨rfl, rfl, rfl, rfl⟩
    · simp only [ht, if_false, Bool.false_eq_true] at hp
      by_cases hstop :
          (qNext t (qProbe env ex w f low high) low high).2 ≤
          (qNext t (qProbe env ex w f low high) low high).1
      · simp only [hstop, if_true] at hp
        rcases List.mem_singleton.mp hp with rfl
        exact ⟨rfl, rfl, rfl, rfl⟩
      · simp only [hstop, if_false] at hp
        rcases List.mem_cons.mp hp with rfl | hp
        · exact ⟨rfl, rfl, rfl, rfl⟩
        · exact ih _ _ _ p hp

theorem qualityLoop_len (env : PILEnv) (ex : Bool) (w : Img) (f : ℚ) (t : Nat) :
    ∀ fuel low high best,
      (qualityLoop env ex w f t low high fuel best).2.length ≤ fuel := by
  intro fuel
  induction fuel with
  | zero => intro low high best; rw [qualityLoop]; exact le_refl _
  | succ n ih =>
    intro low high best
    rw [qualityLoop]
    by_cases ht : tightOkB (qProbe env ex w f low high).bytes.length t = true
    · simp only [ht, if_true]
      simp
    · simp only [ht, if_false, Bool.false_eq_true]
      by_cases hstop :
          (qNext t (qProbe env ex w f low high) low high).2 ≤
          (qNext t (qProbe env ex w f low high) low high).1
      · simp only [hstop, if_true]
        simp
      · simp only [hstop, if_false, List.length_cons]
        exact Nat.succ_le_succ (ih _ _ _)

theorem qualityLoop_ne_nil (env : PILEnv) (ex : Bool) (w : Img) (f : ℚ) (t : Nat)
    (n low high : Nat) (best : Option Cand) :
    (qualityLoop env ex w f t low high (n + 1) best).2 ≠ [] := by
  rw [qualityLoop]
  by_cases ht : tightOkB (qProbe env ex w f low high).bytes.length t = true
  · simp [ht]
  · simp only [ht, if_false, Bool.false_eq_true]
    by_cases hstop :
        (qNext t (qProbe env ex w f low high) low high).2 ≤
        (qNext t (qProbe env ex w f low high) low high).1
    · simp [hstop]
    · simp [hstop]

theorem qualityLoop_qbounds (env : PILEnv) (ex : Bool) (w : Img) (f : ℚ) (t : Nat) :
    ∀ fuel low high best,
      10 ≤ low → low < high → high ≤ 95 →
      ∀ p ∈ (qualityLoop env ex w f t low high fuel best).2,
        10 ≤ p.quality ∧ p.quality ≤ 95 := by
  intro fuel
  induction fuel with
  | zero => intro low high best _ _ _ p hp; cases hp
  | succ n ih =>
    intro low high best hlow hlh hhigh p hp
    rw [qualityLoop] at hp
    have hq10 : 10 ≤ (low + high) / 2 := by omega
    have hq95 : (low + high) / 2 ≤ 94 := by omega
    have hqb : 10 ≤ (qProbe env ex w f low high).quality ∧
        (qProbe env ex w f low high).quality ≤ 95 := by
      constructor
      · show (10 : Int) ≤ (((low + high) / 2 : Nat) : Int)
        exact_mod_cast hq10
      · show (((low + high) / 2 : Nat) : Int) ≤ 95
        have h95 : ((low + high) / 2 : Nat) ≤ 95 := by omega
        exact_mod_cast h95
    by_cases ht : tightOkB (qProbe env ex w f low high).bytes.length t = true
    · simp only [ht, if_true] at hp
      rcases List.mem_singleton.mp hp with rfl
      exact hqb
    · simp only [ht, if_false, Bool.false_eq_true] at hp
      by_cases hstop :
          (qNext t (qProbe env ex w f low high) low high).2 ≤
          (qNext t (qProbe env ex w f low high) low high).1
      · simp only [hstop, if_true] at hp
        rcases List.mem_singleton.mp hp with rfl
        exact hqb
      · simp only [hstop, if_false] at hp
        rcases List.mem_cons.mp hp with rfl | hp
        · exact hqb
        · rw [qNext] at hstop hp
          by_cases hsz : t < (qProbe env ex w f low high).bytes.length
          · simp only [hsz, if_true] at hstop hp
            exact ih low ((low + high) / 2 - 1) _ hlow (by omega) (by omega) p hp
          · simp only [hsz, if_false] at hstop hp
            exact ih ((low + high) / 2 + 1) high _ (by omega) (by omega) hhigh p hp

/-! ## Scale-loop lemmas -/

theorem scaleLoop_probes (env : PILEnv) (ex : Bool) (image : Img) (t it : Nat) :
    ∀ fs best, ∀ p ∈ probesOf (scaleLoop env ex image t it fs best).2,
      p.factor ∈ fs ∧ p.exif = ex ∧ p.img = workingImg env image p.factor ∧
      p.bytes = env.encode (workingImg env image p.factor) p.quality ex ∧
      10 ≤ p.quality ∧ p.quality ≤ 95 := by
  intro fs
  induction fs with
  | nil => intro best p hp; rw [scaleLoop] at hp; cases hp
  | cons f fs ih =>
    intro best p hp
    rw [scaleLoop] at hp
    rcases hql : qualityLoop env ex (workingImg env image f) f t 10 95 it best
      with ⟨out, tr⟩
    rw [hql] at hp
    have htr : ∀ q ∈ tr, q.img = workingImg env image f ∧ q.factor = f ∧
        q.exif = ex ∧ q.bytes = env.encode (workingImg env image f) q.quality ex ∧
        10 ≤ q.quality ∧ q.quality ≤ 95 := by
      intro q hq
      have h1 := qualityLoop_probes env ex (workingImg env image f) f t it 10 95 best q
      have h2 := qualityLoop_qbounds env ex (workingImg env image f) f t it 10 95 best
        (le_refl 10) (by norm_num) (le_refl 95) q
      rw [hql] at h1 h2
      obtain ⟨ha, hb, hc, hd⟩ := h1 hq
      exact ⟨ha, hb, hc, hd, h2 hq⟩
    have hmain : ∀ q ∈ tr, q.factor ∈ f :: fs ∧ q.exif = ex ∧
        q.img = workingImg env image q.factor ∧
        q.bytes = env.encode (workingImg env image q.factor) q.quality ex ∧
        10 ≤ q.quality ∧ q.quality ≤ 95 := by
      intro q hq
      obtain ⟨ha, hb, hc, hd, he, hf⟩ := htr q hq
      rw [hb]
      exact ⟨List.mem_cons_self _ _, hc, hb ▸ ha, hb ▸ hd, he, hf⟩
    cases out with
    | ret b s =>
      simp only [probesOf_map_probe] at hp
      exact hmain p hp
    | cont best1 =>
      cases best1 with
      | none =>
        simp only [probesOf_append, probesOf_map_probe, probesOf_cons_scaleEnd,
          probesOf_nil, List.append_nil, List.mem_append] at hp
        rcases hp with hp | hp
        · exact hmain p hp
        · obtain ⟨ha, hb, hc, hd, he, hf⟩ := ih none p hp
          exact ⟨List.mem_cons_of_mem _ ha, hb, hc, hd, he, hf⟩
      | some c =>
        obtain ⟨bb, bs⟩ := c
        by_cases hrel : (!bb.isEmpty && relaxedOkB bs t) = true
        · simp only [hrel, if_true, probesOf_append, probesOf_map_probe,
            probesOf_cons_scaleEnd, probesOf_nil, List.append_nil] at hp
          exact hmain p hp
        · simp only [hrel, if_false, Bool.false_eq_true, probesOf_append,
            probesOf_map_probe, probesOf_cons_scaleEnd, probesOf_nil,
            List.append_nil, List.mem_append] at hp
          rcases hp with hp | hp
          · exact hmain p hp
          · obtain ⟨ha, hb, hc, hd, he, hf⟩ := ih (some (bb, bs)) p hp
            exact ⟨List.mem_cons_of_mem _ ha, hb, hc, hd, he, hf⟩

theorem getLast_map_probe (tr : List Probe) (p : Probe)
    (h : tr.getLast? = some p) :
    (tr.map Ev.probe).getLast? = some (Ev.probe p) := by
  induction tr with
  | nil => cases h
  | cons a l ih =>
    cases l with
    | nil =>
      simp only [List.getLast?_singleton, Option.some.injEq] at h
      simp [h]
    | cons b l2 =>
      rw [List.getLast?_cons_cons] at h
      simp only [List.map_cons]
      rw [List.getLast?_cons_cons]
      exact ih h

theorem scaleLoop_tight (env : PILEnv) (ex : Bool) (image : Img) (t it : Nat) :
    ∀ fs best p, p ∈ probesOf (scaleLoop env ex image t it fs best).2 →
      tightOkB p.bytes.length t = true →
      (scaleLoop env ex image t it fs best).1 =
        SOut.returned p.bytes (probeStats p) ∧
      (scaleLoop env ex image t it fs best).2.getLast? = some (Ev.probe p) := by
  intro fs
  induction fs with
  | nil => intro best p hp; rw [scaleLoop] at hp; cases hp
  | cons f fs ih =>
    intro best p hp hpt
    rw [scaleLoop] at hp ⊢
    rcases hql : qualityLoop env ex (workingImg env image f) f t 10 95 it best
      with ⟨out, tr⟩
    try rw [hql] at hp
    try rw [hql]
    have hqt := qualityLoop_tight env ex (workingImg env image f) f t it 10 95 best p
    rw [hql] at hqt
    cases out with
    | ret b s =>
      simp only [probesOf_map_probe] at hp
      obtain ⟨h1, h2⟩ := hqt hp hpt
      injection h1 with hb hs
      subst hb
      subst hs
      exact ⟨rfl, getLast_map_probe tr p h2⟩
    | cont best1 =>
      have hnt := qualityLoop_cont env ex (workingImg env image f) f t it 10 95 best best1
      rw [hql] at hnt
      obtain ⟨hA, _, _⟩ := hnt rfl
      cases best1 with
      | none =>
        simp only [probesOf_append, probesOf_map_probe, probesOf_cons_scaleEnd,
          probesOf_nil, List.append_nil, List.mem_append] at hp
        rcases hp with hp | hp
        · rw [hA p hp] at hpt; cases hpt
        · obtain ⟨h1, h2⟩ := ih none p hp hpt
          refine ⟨h1, ?_⟩
          rw [List.getLast?_append_of_ne_nil]
          · exact h2
          · intro hnil
            rw [hnil] at hp
            cases hp
      | some c =>
        obtain ⟨bb, bs⟩ := c
        by_cases hrel : (!bb.isEmpty && relaxedOkB bs t) = true
        · simp only [hrel, if_true, probesOf_append, probesOf_map_probe,
            probesOf_cons_scaleEnd, probesOf_nil, List.append_nil] at hp
          rw [hA p hp] at hpt; cases hpt
        · simp only [hrel, if_false, Bool.false_eq_true, probesOf_append,
            probesOf_map_probe, probesOf_cons_scaleEnd, probesOf_nil,
            List.append_nil, List.mem_append] at hp
          simp only [hrel, if_false, Bool.false_eq_true]
          rcases hp with hp | hp
          · rw [hA p hp] at hpt; cases hpt
          · obtain ⟨h1, h2⟩ := ih (some (bb, bs)) p hp hpt
            refine ⟨h1, ?_⟩
            rw [List.getLast?_append_of_ne_nil]
            · exact h2
            · intro hnil
              rw [hnil] at hp
              cases hp

theorem scaleLoop_spec (env : PILEnv) (ex : Bool) (image : Img) (t it : Nat) :
    ∀ fs best,
      (∀ best', (scaleLoop env ex image t it fs best).1 = SOut.exhausted best' →
        (∀ c, best' = some c →
          (best = some c ∨
            ∃ p ∈ probesOf (scaleLoop env ex image t it fs best).2,
              c = (p.bytes, probeStats p)) ∧
          (∀ p ∈ probesOf (scaleLoop env ex image t it fs best).2,
            byteDelta c.2.compressed_size t ≤ byteDelta p.bytes.length t) ∧
          (∀ c0, best = some c0 →
            byteDelta c.2.compressed_size t ≤ byteDelta c0.2.compressed_size t)) ∧
        (best' = none → best = none)) ∧
      (∀ b s, (scaleLoop env ex image t it fs best).1 = SOut.returned b s →
        (∃ p ∈ probesOf (scaleLoop env ex image t it fs best).2,
          tightOkB p.bytes.length t = true ∧ b = p.bytes ∧ s = probeStats p) ∨
        ((∀ p ∈ probesOf (scaleLoop env ex image t it fs best).2,
            tightOkB p.bytes.length t = false) ∧
          (best = some (b, s) ∨
            ∃ p ∈ probesOf (scaleLoop env ex image t it fs best).2,
              (b, s) = (p.bytes, probeStats p)) ∧
          (∀ p ∈ probesOf (scaleLoop env ex image t it fs best).2,
            byteDelta s.compressed_size t ≤ byteDelta p.bytes.length t) ∧
          (∀ c0, best = some c0 →
            byteDelta s.compressed_size t ≤ byteDelta c0.2.compressed_size t))) := by
  intro fs
  induction fs with
  | nil =>
    intro best
    rw [scaleLoop]
    constructor
    · intro best' h
      injection h with h
      subst h
      constructor
      · intro c hc
        refine ⟨Or.inl hc, fun p hp => absurd hp (List.not_mem_nil p), ?_⟩
        intro c0 hc0
        rw [hc] at hc0
        injection hc0 with hc0
        subst hc0
        exact le_refl _
      · intro h0
        exact h0
    · intro b s h
      cases h
  | cons f fs ih =>
    intro best
    rw [scaleLoop]
    rcases hql : qualityLoop env ex (workingImg env image f) f t 10 95 it best
      with ⟨out, tr⟩
    cases out with
    | ret b0 s0 =>
      have hqr := qualityLoop_ret env ex (workingImg env image f) f t it 10 95 best b0 s0
      rw [hql] at hqr
      obtain ⟨p, hp, hpt, hb, hs⟩ := hqr rfl
      constructor
      · intro best' h
        cases h
      · intro b s h
        injection h with h1 h2
        subst h1
        subst h2
        exact Or.inl ⟨p, by simpa [probesOf_map_probe] using hp, hpt, hb, hs⟩
    | cont best1 =>
      have hqc := qualityLoop_cont env ex (workingImg env image f) f t it 10 95 best best1
      rw [hql] at hqc
      obtain ⟨hA, hB, hC⟩ := hqc rfl
      cases best1 with
      | none =>
        obtain ⟨hbn, htr⟩ := hC rfl
        subst hbn
        subst htr
        simp only [List.map_nil, List.nil_append, probesOf_scaleEnd_append]
        obtain ⟨ihE, ihR⟩ := ih none
        constructor
        · intro best' h
          obtain ⟨ihE1, ihE2⟩ := ihE best' h
          constructor
          · intro c hc
            obtain ⟨hfrom, hmin, _⟩ := ihE1 c hc
            refine ⟨?_, hmin, ?_⟩
            · rcases hfrom with h' | ⟨p, hp, hcp⟩
              · cases h'
              · exact Or.inr ⟨p, hp, hcp⟩
            · intro c0 hc0
              cases hc0
          · intro _
            trivial
        · intro b s h
          rcases ihR b s h with ⟨p, hp, hres⟩ | ⟨hnt, hfrom, hmin, _⟩
          · exact Or.inl ⟨p, hp, hres⟩
          · refine Or.inr ⟨hnt, ?_, hmin, ?_⟩
            · rcases hfrom with h' | ⟨p, hp, hcp⟩
              · cases h'
              · exact Or.inr ⟨p, hp, hcp⟩
            · intro c0 hc0
              cases hc0
      | some c1 =>
        obtain ⟨bb, bs⟩ := c1
        obtain ⟨hfrom1, hmin1, hbase1⟩ := hB (bb, bs) rfl
        by_cases hrel : (!bb.isEmpty && relaxedOkB bs t) = true
        · simp only [hrel, if_true]
          constructor
          · intro best' h
            cases h
          · intro b s h
            injection h with h1 h2
            subst h1
            subst h2
            refine Or.inr ⟨?_, ?_, ?_, ?_⟩
            · intro p hp
              simp only [probesOf_append, probesOf_map_probe,
                probesOf_cons_scaleEnd, probesOf_nil, List.append_nil] at hp
              exact hA p hp
            · rcases hfrom1 with h' | ⟨p, hp, hcp⟩
              · exact Or.inl h'
              · refine Or.inr ⟨p, ?_, hcp⟩
                simp only [probesOf_append, probesOf_map_probe,
                  probesOf_cons_scaleEnd, probesOf_nil, List.append_nil]
                exact hp
            · intro p hp
              simp only [probesOf_append, probesOf_map_probe,
                probesOf_cons_scaleEnd, probesOf_nil, List.append_nil] at hp
              exact hmin1 p hp
            · exact hbase1
        · simp only [hrel, if_false, Bool.false_eq_true]
          obtain ⟨ihE, ihR⟩ := ih (some (bb, bs))
          have hlift : ∀ c : Cand,
              (some (bb, bs) = some c ∨
                ∃ p ∈ probesOf (scaleLoop env ex image t it fs (some (bb, bs))).2,
                  c = (p.bytes, probeStats p)) →
              (∀ p ∈ probesOf (scaleLoop env ex image t it fs (some (bb, bs))).2,
                byteDelta c.2.compressed_size t ≤ byteDelta p.bytes.length t) →
              (∀ c0, some (bb, bs) = some c0 →
                byteDelta c.2.compressed_size t ≤ byteDelta c0.2.compressed_size t) →
              (best = some c ∨
                ∃ p ∈ probesOf (List.map Ev.probe tr ++ [Ev.scaleEnd f (some (bb, bs))] ++
                    (scaleLoop env ex image t it fs (some (bb, bs))).2),
                  c = (p.bytes, probeStats p)) ∧
              (∀ p ∈ probesOf (List.map Ev.probe tr ++ [Ev.scaleEnd f (some (bb, bs))] ++
                  (scaleLoop env ex image t it fs (some (bb, bs))).2),
                byteDelta c.2.compressed_size t ≤ byteDelta p.bytes.length t) ∧
              (∀ c0, best = some c0 →
                byteDelta c.2.compressed_size t ≤ byteDelta c0.2.compressed_size t) := by
            intro c hfrom hmin hbase
            have hcle : byteDelta c.2.compressed_size t ≤
                byteDelta bs.compressed_size t := hbase (bb, bs) rfl
            refine ⟨?_, ?_, ?_⟩
            · rcases hfrom with h' | ⟨p, hp, hcp⟩
              · injection h' with h'
                subst h'
                rcases hfrom1 with h'' | ⟨p, hp, hcp⟩
                · exact Or.inl h''
                · refine Or.inr ⟨p, ?_, hcp⟩
                  simp only [probesOf_append, probesOf_map_probe,
                    probesOf_cons_scaleEnd, probesOf_nil, List.append_nil,
                    List.mem_append]
                  exact Or.inl hp
              · refine Or.inr ⟨p, ?_, hcp⟩
                simp only [probesOf_append, probesOf_map_probe,
                  probesOf_cons_scaleEnd, probesOf_nil, List.append_nil,
                  List.mem_append]
                exact Or.inr hp
            · intro p hp
              simp only [probesOf_append, probesOf_map_probe,
                probesOf_cons_scaleEnd, probesOf_nil, List.append_nil,
                List.mem_append] at hp
              rcases hp with hp | hp
              · exact le_trans hcle (hmin1 p hp)
              · exact hmin p hp
            · intro c0 hc0
              exact le_trans hcle (hbase1 c0 hc0)
          constructor
          · intro best' h
            obtain ⟨ihE1, ihE2⟩ := ihE best' h
            constructor
            · intro c hc
              obtain ⟨hfrom, hmin, hbase⟩ := ihE1 c hc
              exact hlift c hfrom hmin hbase
            · intro h0
              cases ihE2 h0
          · intro b s h
            rcases ihR b s h with ⟨p, hp, hres⟩ | ⟨hnt, hfrom, hmin, hbase⟩
            · refine Or.inl ⟨p, ?_, hres⟩
              simp only [probesOf_append, probesOf_map_probe,
                probesOf_cons_scaleEnd, probesOf_nil, List.append_nil,
                List.mem_append]
              exact Or.inr hp
            · obtain ⟨hf, hm, hb⟩ := hlift (b, s) hfrom hmin hbase
              refine Or.inr ⟨?_, hf, hm, hb⟩
              intro p hp
              simp only [probesOf_append, probesOf_map_probe,
                probesOf_cons_scaleEnd, probesOf_nil, List.append_nil,
                List.mem_append] at hp
              rcases hp with hp | hp
              · exact hA p hp
              · exact hnt p hp

theorem scaleEnd_not_mem_map_probe (f : ℚ) (b : Option Cand) (tr : List Probe) :
    Ev.scaleEnd f b ∉ tr.map Ev.probe := by
  intro h
  obtain ⟨p, _, hp⟩ := List.mem_map.mp h
  cases hp

theorem scaleLoop_relaxed (env : PILEnv) (ex : Bool) (image : Img) (t it : Nat) :
    ∀ fs best f0 bb bs,
      Ev.scaleEnd f0 (some (bb, bs)) ∈ (scaleLoop env ex image t it fs best).2 →
      bb ≠ [] → relaxedOkB bs t = true →
      (scaleLoop env ex image t it fs best).1 = SOut.returned bb bs ∧
      (scaleLoop env ex image t it fs best).2.getLast? =
        some (Ev.scaleEnd f0 (some (bb, bs))) := by
  intro fs
  induction fs with
  | nil => intro best f0 bb bs hm; rw [scaleLoop] at hm; cases hm
  | cons f fs ih =>
    intro best f0 bb bs hm hbb hrel0
    rw [scaleLoop] at hm ⊢
    rcases hql : qualityLoop env ex (workingImg env image f) f t 10 95 it best
      with ⟨out, tr⟩
    try rw [hql] at hm
    try rw [hql]
    cases out with
    | ret b0 s0 =>
      exact absurd hm (scaleEnd_not_mem_map_probe _ _ _)
    | cont best1 =>
      cases best1 with
      | none =>
        rcases List.mem_append.mp hm with hm1 | hm2
        · rcases List.mem_append.mp hm1 with hm3 | hm4
          · exact absurd hm3 (scaleEnd_not_mem_map_probe _ _ _)
          · rcases List.mem_singleton.mp hm4 with h
            cases h
        · obtain ⟨h1, h2⟩ := ih none f0 bb bs hm2 hbb hrel0
          refine ⟨h1, ?_⟩
          rw [List.getLast?_append_of_ne_nil]
          · exact h2
          · intro hnil
            rw [hnil] at hm2
            cases hm2
      | some c1 =>
        obtain ⟨bb1, bs1⟩ := c1
        by_cases hrel : (!bb1.isEmpty && relaxedOkB bs1 t) = true
        · simp only [hrel, if_true] at hm ⊢
          rcases List.mem_append.mp hm with hm1 | hm2
          · exact absurd hm1 (scaleEnd_not_mem_map_probe _ _ _)
          · rcases List.mem_singleton.mp hm2 with h
            injection h with h1 h2
            injection h2 with h2
            injection h2 with h3 h4
            subst h3
            subst h4
            constructor
            · rfl
            · rw [List.getLast?_append_of_ne_nil _ (by simp)]
              subst h1
              rfl
        · simp only [hrel, if_false, Bool.false_eq_true] at hm ⊢
          rcases List.mem_append.mp hm with hm1 | hm2
          · rcases List.mem_append.mp hm1 with hm3 | hm4
            · exact absurd hm3 (scaleEnd_not_mem_map_probe _ _ _)
            · rcases List.mem_singleton.mp hm4 with h
              injection h with h1 h2
              injection h2 with h2
              injection h2 with h3 h4
              subst h3
              subst h4
              exfalso
              apply hrel
              rw [Bool.and_eq_true]
              constructor
              · rw [Bool.not_eq_true']
                exact Bool.eq_false_iff.mpr fun he => hbb (List.isEmpty_iff.mp he)
              · exact hrel0
          · obtain ⟨h1, h2⟩ := ih (some (bb1, bs1)) f0 bb bs hm2 hbb hrel0
            refine ⟨h1, ?_⟩
            rw [List.getLast?_append_of_ne_nil]
            · exact h2
            · intro hnil
              rw [hnil] at hm2
              cases hm2

theorem scaleLoop_nonempty (env : PILEnv) (ex : Bool) (image : Img) (t : Nat)
    (it : Nat) (henc : ∀ i q e, env.encode i q e ≠ []) (hit : 1 ≤ it) :
    ∀ fs best, (∀ c : Cand, best = some c → c.1 ≠ []) →
      (∀ b s, (scaleLoop env ex image t it fs best).1 = SOut.returned b s →
        b ≠ []) ∧
      (∀ c : Cand, (scaleLoop env ex image t it fs best).1 =
        SOut.exhausted (some c) → c.1 ≠ []) ∧
      (fs ≠ [] → ∀ h0, (scaleLoop env ex image t it fs best).1 =
        SOut.exhausted none → h0 ∈ ([] : List Nat)) := by
  intro fs
  induction fs with
  | nil =>
    intro best hinv
    rw [scaleLoop]
    refine ⟨?_, ?_, ?_⟩
    · intro b s h
      cases h
    · intro c h
      injection h with h
      exact hinv c h
    · intro hne
      exact absurd rfl hne
  | cons f fs ih =>
    intro best hinv
    rw [scaleLoop]
    rcases hql : qualityLoop env ex (workingImg env image f) f t 10 95 it best
      with ⟨out, tr⟩
    have hprobes := qualityLoop_probes env ex (workingImg env image f) f t it 10 95 best
    rw [hql] at hprobes
    cases out with
    | ret b0 s0 =>
      have hqr := qualityLoop_ret env ex (workingImg env image f) f t it 10 95 best b0 s0
      rw [hql] at hqr
      obtain ⟨p, hp, _, hb, _⟩ := hqr rfl
      refine ⟨?_, ?_, ?_⟩
      · intro b s h
        injection h with h1 h2
        subst h1
        rw [hb, (hprobes p hp).2.2.2]
        exact henc _ _ _
      · intro c h
        cases h
      · intro _ h0 h
        cases h
    | cont best1 =>
      have hqc := qualityLoop_cont env ex (workingImg env image f) f t it 10 95 best best1
      rw [hql] at hqc
      obtain ⟨_, hB, hC⟩ := hqc rfl
      cases best1 with
      | none =>
        exfalso
        obtain ⟨_, htr⟩ := hC rfl
        obtain ⟨m, hm⟩ := Nat.exists_eq_add_of_le hit
        have := qualityLoop_ne_nil env ex (workingImg env image f) f t m 10 95 best
        rw [Nat.add_comm 1 m] at hm
        rw [← hm, hql] at this
        exact this htr
      | some c1 =>
        obtain ⟨bb1, bs1⟩ := c1
        have hc1ne : bb1 ≠ [] := by
          obtain ⟨hfrom, _, _⟩ := hB (bb1, bs1) rfl
          rcases hfrom with h' | ⟨p, hp, hcp⟩
          · exact hinv (bb1, bs1) h'
          · have : bb1 = p.bytes := congrArg Prod.fst hcp
            rw [this, (hprobes p hp).2.2.2]
            exact henc _ _ _
        by_cases hrel : (!bb1.isEmpty && relaxedOkB bs1 t) = true
        · simp only [hrel, if_true]
          refine ⟨?_, ?_, ?_⟩
          · intro b s h
            injection h with h1 h2
            subst h1
            exact hc1ne
          · intro c h
            cases h
          · intro _ h0 h
            cases h
        · simp only [hrel, if_false, Bool.false_eq_true]
          have hinv1 : ∀ c : Cand, some (bb1, bs1) = some c → c.1 ≠ [] := by
            intro c hc
            injection hc with hc
            subst hc
            exact hc1ne
          obtain ⟨ih1, ih2, ih3⟩ := ih (some (bb1, bs1)) hinv1
          refine ⟨ih1, ih2, fun _ h0 h => ?_⟩
          cases fs with
          | nil =>
            rw [scaleLoop] at h
            injection h with h
            cases h
          | cons g gs =>
            exact ih3 (by simp) h0 h

theorem scaleLoop_count (env : PILEnv) (ex : Bool) (image : Img) (t it : Nat) :
    ∀ fs best,
      (probesOf (scaleLoop env ex image t it fs best).2).length ≤
        fs.length * it := by
  intro fs
  induction fs with
  | nil =>
    intro best
    rw [scaleLoop]
    simp [probesOf_nil]
  | cons f fs ih =>
    intro best
    rw [scaleLoop]
    rcases hql : qualityLoop env ex (workingImg env image f) f t 10 95 it best
      with ⟨out, tr⟩
    have hlen := qualityLoop_len env ex (workingImg env image f) f t it 10 95 best
    rw [hql] at hlen
    have hlen' : tr.length ≤ it := hlen
    cases out with
    | ret b0 s0 =>
      simp only [probesOf_map_probe]
      calc tr.length ≤ it := hlen'
        _ ≤ (f :: fs).length * it := by
          simp only [List.length_cons]
          exact Nat.le_mul_of_pos_left it (Nat.succ_pos _)
    | cont best1 =>
      cases best1 with
      | none =>
        simp only [probesOf_append, probesOf_map_probe, probesOf_cons_scaleEnd,
          probesOf_nil, List.append_nil, List.length_append, List.length_cons]
        calc tr.length + (probesOf (scaleLoop env ex image t it fs none).2).length
            ≤ it + fs.length * it := Nat.add_le_add hlen' (ih none)
          _ = (fs.length + 1) * it := by ring
      | some c1 =>
        obtain ⟨bb1, bs1⟩ := c1
        by_cases hrel : (!bb1.isEmpty && relaxedOkB bs1 t) = true
        · simp only [hrel, if_true, probesOf_append, probesOf_map_probe,
            probesOf_cons_scaleEnd, probesOf_nil, List.append_nil,
            List.length_cons]
          calc tr.length ≤ it := hlen'
            _ ≤ (fs.length + 1) * it := Nat.le_mul_of_pos_left it (Nat.succ_pos _)
        · simp only [hrel, if_false, Bool.false_eq_true, probesOf_append,
            probesOf_map_probe, probesOf_cons_scaleEnd, probesOf_nil,
            List.append_nil, List.length_append, List.length_cons]
          calc tr.length +
              (probesOf (scaleLoop env ex image t it fs (some (bb1, bs1))).2).length
              ≤ it + fs.length * it := Nat.add_le_add hlen' (ih (some (bb1, bs1)))
            _ = (fs.length + 1) * it := by ring

theorem scaleLoop_factor_count (env : PILEnv) (ex : Bool) (image : Img)
    (t it : Nat) :
    ∀ fs best f0, fs.Nodup →
      ((probesOf (scaleLoop env ex image t it fs best).2).filter
        (fun p => decide (p.factor = f0))).length ≤ it ∧
      (f0 ∉ fs →
        ((probesOf (scaleLoop env ex image t it fs best).2).filter
          (fun p => decide (p.factor = f0))).length = 0) := by
  intro fs
  induction fs with
  | nil =>
    intro best f0 _
    rw [scaleLoop]
    exact ⟨Nat.zero_le _, fun _ => rfl⟩
  | cons f fs ih =>
    intro best f0 hnd
    rw [scaleLoop]
    rcases hql : qualityLoop env ex (workingImg env image f) f t 10 95 it best
      with ⟨out, tr⟩
    have hlen := qualityLoop_len env ex (workingImg env image f) f t it 10 95 best
    rw [hql] at hlen
    have hlen' : tr.length ≤ it := hlen
    have hfac := qualityLoop_probes env ex (workingImg env image f) f t it 10 95 best
    rw [hql] at hfac
    have htrcount : (tr.filter (fun p => decide (p.factor = f0))).length ≤ it :=
      le_trans (List.length_filter_le _ _) hlen'
    have htrzero : f0 ≠ f →
        (tr.filter (fun p => decide (p.factor = f0))).length = 0 := by
      intro hne
      rw [List.length_eq_zero, List.filter_eq_nil_iff]
      intro p hp
      have := (hfac p hp).2.1
      simp only [decide_eq_true_eq]
      rw [this]
      exact fun h => hne h.symm
    obtain ⟨hnd1, hnd2⟩ := List.nodup_cons.mp hnd
    cases out with
    | ret b0 s0 =>
      simp only [probesOf_map_probe]
      refine ⟨htrcount, fun hnm => htrzero fun he => hnm (he ▸ List.mem_cons_self _ _)⟩
    | cont best1 =>
      have step : ∀ best2,
          ((probesOf ((List.map Ev.probe tr ++ [Ev.scaleEnd f best1]) ++
            (scaleLoop env ex image t it fs best2).2)).filter
              (fun p => decide (p.factor = f0))).length ≤ it ∧
          (f0 ∉ f :: fs →
            ((probesOf ((List.map Ev.probe tr ++ [Ev.scaleEnd f best1]) ++
              (scaleLoop env ex image t it fs best2).2)).filter
                (fun p => decide (p.factor = f0))).length = 0) := by
        intro best2
        obtain ⟨ihc, ihz⟩ := ih best2 f0 hnd2
        simp only [probesOf_append, probesOf_map_probe, probesOf_cons_scaleEnd,
          probesOf_nil, List.append_nil, List.filter_append, List.length_append]
        constructor
        · by_cases hff : f0 = f
          · have hz : ((probesOf (scaleLoop env ex image t it fs best2).2).filter
                (fun p => decide (p.factor = f0))).length = 0 := by
              have hf0 : f0 ∉ fs := hff ▸ hnd1
              exact ihz (fun hmem => hf0 hmem) |>.symm ▸ (ihz hf0)
            omega
          · have hz := htrzero hff
            omega
        · intro hnm
          have hne : f0 ≠ f := fun he => hnm (he ▸ List.mem_cons_self _ _)
          have hnfs : f0 ∉ fs := fun hm => hnm (List.mem_cons_of_mem _ hm)
          rw [htrzero hne, ihz hnfs]
      cases best1 with
      | none => exact step none
      | some c1 =>
        obtain ⟨bb1, bs1⟩ := c1
        by_cases hrel : (!bb1.isEmpty && relaxedOkB bs1 t) = true
        · simp only [hrel, if_true, probesOf_append, probesOf_map_probe,
            probesOf_cons_scaleEnd, probesOf_nil, List.append_nil]
          refine ⟨htrcount, fun hnm =>
            htrzero fun he => hnm (he ▸ List.mem_cons_self _ _)⟩
        · simp only [hrel, if_false, Bool.false_eq_true]
          exact step (some (bb1, bs1))

theorem scaleLoop_scaleEnds (env : PILEnv) (ex : Bool) (image : Img)
    (t it : Nat) :
    ∀ fs best, ∃ k, k ≤ fs.length ∧
      scaleEndsOf (scaleLoop env ex image t it fs best).2 = fs.take k := by
  intro fs
  induction fs with
  | nil =>
    intro best
    rw [scaleLoop]
    exact ⟨0, Nat.le_refl _, rfl⟩
  | cons f fs ih =>
    intro best
    rw [scaleLoop]
    rcases hql : qualityLoop env ex (workingImg env image f) f t 10 95 it best
      with ⟨out, tr⟩
    cases out with
    | ret b0 s0 =>
      exact ⟨0, Nat.zero_le _, scaleEndsOf_map_probe tr⟩
    | cont best1 =>
      have hse : ∀ best2, scaleEndsOf ((List.map Ev.probe tr ++
          [Ev.scaleEnd f best1]) ++ (scaleLoop env ex image t it fs best2).2) =
          f :: scaleEndsOf (scaleLoop env ex image t it fs best2).2 := by
        intro best2
        rw [scaleEndsOf_append, scaleEndsOf_append, scaleEndsOf_map_probe,
          scaleEndsOf_single]
        rfl
      cases best1 with
      | none =>
        obtain ⟨k, hk, hkeq⟩ := ih none
        refine ⟨k + 1, Nat.succ_le_succ hk, ?_⟩
        rw [hse none, hkeq]
        rfl
      | some c1 =>
        obtain ⟨bb1, bs1⟩ := c1
        by_cases hrel : (!bb1.isEmpty && relaxedOkB bs1 t) = true
        · simp only [hrel, if_true]
          refine ⟨1, Nat.succ_le_succ (Nat.zero_le _), ?_⟩
          rw [scaleEndsOf_append, scaleEndsOf_map_probe, scaleEndsOf_single]
          rfl
        · simp only [hrel, if_false, Bool.false_eq_true]
          obtain ⟨k, hk, hkeq⟩ := ih (some (bb1, bs1))
          refine ⟨k + 1, Nat.succ_le_succ hk, ?_⟩
          rw [hse (some (bb1, bs1)), hkeq]
          rfl

/-! ## Top-level decomposition of compress_image_to_kb -/

theorem kb_trace_eq (env : PILEnv) (image0 : Img) (kb : Nat) (pres : Bool)
    (it : Nat) :
    (compress_image_to_kb env image0 kb pres it).trace =
      (scaleLoop env (pres && (convImg env image0).hasExif) (convImg env image0)
        (kb * 1024) it dimension_reductions none).2 := by
  rw [compress_image_to_kb]
  rcases hsl : scaleLoop env (pres && (convImg env image0).hasExif)
      (convImg env image0) (kb * 1024) it dimension_reductions none
    with ⟨out, evs⟩
  cases out with
  | returned b s => rfl
  | exhausted best =>
    cases best with
    | none => rfl
    | some c =>
      obtain ⟨bb, bs⟩ := c
      by_cases hbb : (!bb.isEmpty) = true
      · simp only [hbb, if_true]
      · simp only [hbb, if_false, Bool.false_eq_true]
        rfl

theorem kb_cases (env : PILEnv) (image0 : Img) (kb : Nat) (pres : Bool)
    (it : Nat) :
    (∃ b s,
      (scaleLoop env (pres && (convImg env image0).hasExif) (convImg env image0)
        (kb * 1024) it dimension_reductions none).1 = SOut.returned b s ∧
      compress_image_to_kb env image0 kb pres it =
        ⟨b, s, (scaleLoop env (pres && (convImg env image0).hasExif)
          (convImg env image0) (kb * 1024) it dimension_reductions none).2,
         false⟩) ∨
    (∃ bb bs,
      (scaleLoop env (pres && (convImg env image0).hasExif) (convImg env image0)
        (kb * 1024) it dimension_reductions none).1 =
          SOut.exhausted (some (bb, bs)) ∧ bb ≠ [] ∧
      compress_image_to_kb env image0 kb pres it =
        ⟨bb, bs, (scaleLoop env (pres && (convImg env image0).hasExif)
          (convImg env image0) (kb * 1024) it dimension_reductions none).2,
         false⟩) ∨
    (((∃ bs,
        (scaleLoop env (pres && (convImg env image0).hasExif)
          (convImg env image0) (kb * 1024) it dimension_reductions none).1 =
            SOut.exhausted (some ([], bs))) ∨
      (scaleLoop env (pres && (convImg env image0).hasExif) (convImg env image0)
        (kb * 1024) it dimension_reductions none).1 = SOut.exhausted none) ∧
      compress_image_to_kb env image0 kb pres it =
        kbFallback env (convImg env image0)
          (scaleLoop env (pres && (convImg env image0).hasExif)
            (convImg env image0) (kb * 1024) it dimension_reductions none).2) := by
  rw [compress_image_to_kb]
  rcases hsl : scaleLoop env (pres && (convImg env image0).hasExif)
      (convImg env image0) (kb * 1024) it dimension_reductions none
    with ⟨out, evs⟩
  cases out with
  | returned b s => exact Or.inl ⟨b, s, rfl, rfl⟩
  | exhausted best =>
    cases best with
    | none => exact Or.inr (Or.inr ⟨Or.inr rfl, rfl⟩)
    | some c =>
      obtain ⟨bb, bs⟩ := c
      by_cases hbb : bb.isEmpty = true
      · rw [List.isEmpty_iff.mp hbb]
        refine Or.inr (Or.inr ⟨Or.inl ⟨bs, rfl⟩, ?_⟩)
        simp only [List.isEmpty_nil, Bool.not_true, if_false, Bool.false_eq_true]
      · have hne : bb ≠ [] := fun he => hbb (List.isEmpty_iff.mpr he)
        refine Or.inr (Or.inl ⟨bb, bs, rfl, hne, ?_⟩)
        simp only [Bool.not_eq_true] at hbb
        simp only [hbb, Bool.not_false, if_true]

/-! ## Claim theorems -/

/-- C1: whenever a quality probe of `compress_image_to_kb` produces bytes
within the 5% tight-acceptance band of the target (boundary included, the
test being `<=`), the function returns immediately with exactly that probe's
bytes and a stats record carrying that probe's width, height, byte length,
quality and dimension factor: the probe is the last event of the whole run
(no further probes, no further scales) and the fallback does not run. -/
theorem c1_tight_acceptance_immediate_return (env : PILEnv) (image0 : Img)
    (kb : Nat) (pres : Bool) (it : Nat) (p : Probe)
    (hp : p ∈ probesOf (compress_image_to_kb env image0 kb pres it).trace)
    (hpt : tightOkB p.bytes.length (kb * 1024) = true) :
    (compress_image_to_kb env image0 kb pres it).bytes = p.bytes ∧
    (compress_image_to_kb env image0 kb pres it).stats = probeStats p ∧
    (compress_image_to_kb env image0 kb pres it).trace.getLast? =
      some (Ev.probe p) ∧
    (compress_image_to_kb env image0 kb pres it).fellback = false := by
  have htr := kb_trace_eq env image0 kb pres it
  rw [htr] at hp
  have htight := scaleLoop_tight env (pres && (convImg env image0).hasExif)
    (convImg env image0) (kb * 1024) it dimension_reductions none p hp hpt
  obtain ⟨hout1, hlast⟩ := htight
  rcases kb_cases env image0 kb pres it with
    ⟨b, s, hout, hres⟩ | ⟨bb, bs, hout, hne, hres⟩ | ⟨hout, hres⟩
  · rw [hout] at hout1
    injection hout1 with hb hs
    subst hb
    subst hs
    rw [hres]
    refine ⟨rfl, rfl, ?_, rfl⟩
    exact hlast
  · rw [hout] at hout1
    cases hout1
  · rcases hout with ⟨bs, hout⟩ | hout
    · rw [hout] at hout1
      cases hout1
    · rw [hout] at hout1
      cases hout1

/-- Witness for C1: with target 0 KB and an encoder returning empty output,
the very first probe (factor 1, quality 52) is within the tight band and is
returned at once. -/
theorem c1_witness :
    (compress_image_to_kb envNil imgRGB 0 false 1).bytes =
      (⟨imgRGB, 1, 52, false, []⟩ : Probe).bytes ∧
    (compress_image_to_kb envNil imgRGB 0 false 1).stats =
      probeStats ⟨imgRGB, 1, 52, false, []⟩ ∧
    (compress_image_to_kb envNil imgRGB 0 false 1).trace.getLast? =
      some (Ev.probe ⟨imgRGB, 1, 52, false, []⟩) ∧
    (compress_image_to_kb envNil imgRGB 0 false 1).fellback = false :=
  c1_tight_acceptance_immediate_return envNil imgRGB 0 false 1
    ⟨imgRGB, 1, 52, false, []⟩ (by decide) (by decide)

/-- C2: when no probe is tight-accepted, the fallback never runs (given at
least one iteration and a JPEG encoder that never returns empty output), the
returned bytes and stats are those of a probe achieving the minimum byte
deviation over all probes of the entire call, and any scale-end marker whose
global best is truthy and within the relaxed 10% band is the last event of
the run (no smaller scale factors are tried) with exactly that best candidate
returned. -/
theorem c2_relaxed_acceptance_and_best (env : PILEnv) (image0 : Img) (kb : Nat)
    (pres : Bool) (it : Nat) (hit : 1 ≤ it)
    (henc : ∀ i q e, env.encode i q e ≠ [])
    (hnt : ∀ p ∈ probesOf (compress_image_to_kb env image0 kb pres it).trace,
      tightOkB p.bytes.length (kb * 1024) = false) :
    (compress_image_to_kb env image0 kb pres it).fellback = false ∧
    (∃ p ∈ probesOf (compress_image_to_kb env image0 kb pres it).trace,
      (compress_image_to_kb env image0 kb pres it).bytes = p.bytes ∧
      (compress_image_to_kb env image0 kb pres it).stats = probeStats p ∧
      ∀ q ∈ probesOf (compress_image_to_kb env image0 kb pres it).trace,
        byteDelta p.bytes.length (kb * 1024) ≤
          byteDelta q.bytes.length (kb * 1024)) ∧
    (∀ f bb bs,
      Ev.scaleEnd f (some (bb, bs)) ∈
        (compress_image_to_kb env image0 kb pres it).trace →
      bb ≠ [] → relaxedOkB bs (kb * 1024) = true →
      (compress_image_to_kb env image0 kb pres it).trace.getLast? =
        some (Ev.scaleEnd f (some (bb, bs))) ∧
      (compress_image_to_kb env image0 kb pres it).bytes = bb ∧
      (compress_image_to_kb env image0 kb pres it).stats = bs) := by
  have htr := kb_trace_eq env image0 kb pres it
  rw [htr] at hnt
  obtain ⟨hneR, hneE, hneN⟩ := scaleLoop_nonempty env
    (pres && (convImg env image0).hasExif) (convImg env image0) (kb * 1024) it
    henc hit dimension_reductions none (fun c hc => by cases hc)
  obtain ⟨hE, hR⟩ := scaleLoop_spec env (pres && (convImg env image0).hasExif)
    (convImg env image0) (kb * 1024) it dimension_reductions none
  rcases kb_cases env image0 kb pres it with
    ⟨b, s, hout, hres⟩ | ⟨bb, bs, hout, hnebb, hres⟩ | ⟨houts, hres⟩
  · rcases hR b s hout with ⟨p, hp, hpt, hb, hs⟩ | ⟨hntp, hfrom, hmin, _⟩
    · rw [hnt p hp] at hpt
      cases hpt
    · rcases hfrom with h' | ⟨p, hp, hcp⟩
      · cases h'
      · injection hcp with hcb hcs
        subst hcb
        subst hcs
        refine ⟨by rw [hres], ⟨p, by rw [htr]; exact hp, by rw [hres], by rw [hres], ?_⟩, ?_⟩
        · intro q hq
          rw [htr] at hq
          have := hmin q hq
          simpa using this
        · intro f0 bb0 bs0 hm hbb0 hrel0
          rw [htr] at hm
          obtain ⟨h1, h2⟩ := scaleLoop_relaxed env
            (pres && (convImg env image0).hasExif) (convImg env image0)
            (kb * 1024) it dimension_reductions none f0 bb0 bs0 hm hbb0 hrel0
          rw [hout] at h1
          injection h1 with hb1 hs1
          subst hb1
          subst hs1
          exact ⟨by rw [htr]; exact h2, by rw [hres], by rw [hres]⟩
  · obtain ⟨hEx1, _⟩ := hE (some (bb, bs)) hout
    obtain ⟨hfrom, hmin, _⟩ := hEx1 (bb, bs) rfl
    rcases hfrom with h' | ⟨p, hp, hcp⟩
    · cases h'
    · injection hcp with hcb hcs
      subst hcb
      subst hcs
      refine ⟨by rw [hres], ⟨p, by rw [htr]; exact hp, by rw [hres], by rw [hres], ?_⟩, ?_⟩
      · intro q hq
        rw [htr] at hq
        have := hmin q hq
        simpa using this
      · intro f0 bb0 bs0 hm hbb0 hrel0
        rw [htr] at hm
        obtain ⟨h1, _⟩ := scaleLoop_relaxed env
          (pres && (convImg env image0).hasExif) (convImg env image0)
          (kb * 1024) it dimension_reductions none f0 bb0 bs0 hm hbb0 hrel0
        rw [hout] at h1
        cases h1
  · exfalso
    rcases houts with ⟨bs0, hout⟩ | hout
    · exact hneE ([], bs0) hout rfl
    · have := hneN (by simp [dimension_reductions]) 0 hout
      cases this

/-- Witness for C2: a 1 KB target with a constant 3-byte encoder accepts no
probe tightly, so the result is the minimal-deviation probe and the fallback
does not run. -/
theorem c2_witness :
    (compress_image_to_kb env3 imgRGB 1 false 1).fellback = false ∧
    (∃ p ∈ probesOf (compress_image_to_kb env3 imgRGB 1 false 1).trace,
      (compress_image_to_kb env3 imgRGB 1 false 1).bytes = p.bytes ∧
      (compress_image_to_kb env3 imgRGB 1 false 1).stats = probeStats p ∧
      ∀ q ∈ probesOf (compress_image_to_kb env3 imgRGB 1 false 1).trace,
        byteDelta p.bytes.length (1 * 1024) ≤
          byteDelta q.bytes.length (1 * 1024)) ∧
    (∀ f bb bs,
      Ev.scaleEnd f (some (bb, bs)) ∈
        (compress_image_to_kb env3 imgRGB 1 false 1).trace →
      bb ≠ [] → relaxedOkB bs (1 * 1024) = true →
      (compress_image_to_kb env3 imgRGB 1 false 1).trace.getLast? =
        some (Ev.scaleEnd f (some (bb, bs))) ∧
      (compress_image_to_kb env3 imgRGB 1 false 1).bytes = bb ∧
      (compress_image_to_kb env3 imgRGB 1 false 1).stats = bs) :=
  c2_relaxed_acceptance_and_best env3 imgRGB 1 false 1 (by decide)
    (fun _ _ _ => List.cons_ne_nil 0 [0, 0]) (by decide)

/-- C10: on every return path of `compress_image_to_kb` (tight acceptance,
relaxed acceptance, exhausted-search best, and the quality-10 fallback) the
returned stats are internally consistent with the returned buffer:
`compressed_size` is the byte length of the returned bytes, `final_width` and
`final_height` are the dimensions of the image that was encoded to produce
those bytes (at the recorded quality), and `dimension_factor` is a member of
`[1.0, 0.9, 0.8, 0.7, 0.6, 0.5]` (the fallback records 1.0, also in the
list). -/
theorem c10_stats_consistent_with_bytes (env : PILEnv) (image0 : Img)
    (kb : Nat) (pres : Bool) (it : Nat) :
    (compress_image_to_kb env image0 kb pres it).stats.compressed_size =
      (compress_image_to_kb env image0 kb pres it).bytes.length ∧
    (compress_image_to_kb env image0 kb pres it).stats.dimension_factor ∈
      dimension_reductions ∧
    ∃ i q fl,
      (compress_image_to_kb env image0 kb pres it).bytes = env.encode i q fl ∧
      (compress_image_to_kb env image0 kb pres it).stats.final_width =
        i.width ∧
      (compress_image_to_kb env image0 kb pres it).stats.final_height =
        i.height ∧
      (compress_image_to_kb env image0 kb pres it).stats.quality_used = q := by
  have hprobes := scaleLoop_probes env (pres && (convImg env image0).hasExif)
    (convImg env image0) (kb * 1024) it dimension_reductions none
  obtain ⟨hE, hR⟩ := scaleLoop_spec env (pres && (convImg env image0).hasExif)
    (convImg env image0) (kb * 1024) it dimension_reductions none
  have probeCase : ∀ p, p ∈ probesOf (scaleLoop env
      (pres && (convImg env image0).hasExif) (convImg env image0) (kb * 1024)
      it dimension_reductions none).2 →
      (probeStats p).compressed_size = p.bytes.length ∧
      (probeStats p).dimension_factor ∈ dimension_reductions ∧
      ∃ i q fl, p.bytes = env.encode i q fl ∧
        (probeStats p).final_width = i.width ∧
        (probeStats p).final_height = i.height ∧
        (probeStats p).quality_used = q := by
    intro p hp
    obtain ⟨hfac, hex, himg, hbytes, _, _⟩ := hprobes p hp
    refine ⟨rfl, hfac, p.img, p.quality,
      pres && (convImg env image0).hasExif, ?_, rfl, rfl, rfl⟩
    rw [hbytes, himg]
  rcases kb_cases env image0 kb pres it with
    ⟨b, s, hout, hres⟩ | ⟨bb, bs, hout, hnebb, hres⟩ | ⟨houts, hres⟩
  · rcases hR b s hout with ⟨p, hp, _, hb, hs⟩ | ⟨_, hfrom, _, _⟩
    · obtain ⟨h1, h2, h3⟩ := probeCase p hp
      subst hb
      subst hs
      rw [hres]
      exact ⟨h1, h2, h3⟩
    · rcases hfrom with h' | ⟨p, hp, hcp⟩
      · cases h'
      · injection hcp with hcb hcs
        subst hcb
        subst hcs
        obtain ⟨h1, h2, h3⟩ := probeCase p hp
        rw [hres]
        exact ⟨h1, h2, h3⟩
  · obtain ⟨hEx1, _⟩ := hE (some (bb, bs)) hout
    obtain ⟨hfrom, _, _⟩ := hEx1 (bb, bs) rfl
    rcases hfrom with h' | ⟨p, hp, hcp⟩
    · cases h'
    · injection hcp with hcb hcs
      subst hcb
      subst hcs
      obtain ⟨h1, h2, h3⟩ := probeCase p hp
      rw [hres]
      exact ⟨h1, h2, h3⟩
  · rw [hres]
    refine ⟨rfl, ?_, convImg env image0, 10, false, rfl, rfl, rfl, rfl⟩
    exact List.mem_cons_self _ _

/-- C7: `compress_image_to_kb` performs at most `6 * maxIterations` encode
probes and terminates: the scale list is exactly `[1.0, 0.9, 0.8, 0.7, 0.6,
0.5]`, processed in that order (the scale-end markers always form a prefix of
that list), every probe's factor is from the list, each scale's quality loop
runs at most `maxIterations` probes, and the quality loop emits at most one
further probe once `low >= high` holds (the narrowing step then stops the
scale). -/
theorem c7_probe_budget_and_termination (env : PILEnv) (image0 : Img)
    (kb : Nat) (pres : Bool) (it : Nat) :
    (probesOf (compress_image_to_kb env image0 kb pres it).trace).length ≤
      6 * it ∧
    dimension_reductions = [1, 9/10, 8/10, 7/10, 6/10, 5/10] ∧
    (∀ p ∈ probesOf (compress_image_to_kb env image0 kb pres it).trace,
      p.factor ∈ dimension_reductions) ∧
    (∀ f0 : ℚ,
      ((probesOf (compress_image_to_kb env image0 kb pres it).trace).filter
        (fun p => decide (p.factor = f0))).length ≤ it) ∧
    (∃ k, k ≤ 6 ∧
      scaleEndsOf (compress_image_to_kb env image0 kb pres it).trace =
        dimension_reductions.take k) ∧
    (∀ (ex : Bool) (w : Img) (f : ℚ) (t low high fuel : Nat)
      (best : Option Cand),
      (qualityLoop env ex w f t low high fuel best).2.length ≤ fuel) ∧
    (∀ (ex : Bool) (w : Img) (f : ℚ) (t low high fuel : Nat)
      (best : Option Cand), high ≤ low →
      (qualityLoop env ex w f t low high (fuel + 1) best).2.length ≤ 1) := by
  have htr := kb_trace_eq env image0 kb pres it
  rw [htr]
  refine ⟨?_, dimension_reductions_eq, ?_, ?_, ?_, ?_, ?_⟩
  · have := scaleLoop_count env (pres && (convImg env image0).hasExif)
      (convImg env image0) (kb * 1024) it dimension_reductions none
    simpa [dimension_reductions, Nat.mul_comm] using this
  · intro p hp
    exact (scaleLoop_probes env (pres && (convImg env image0).hasExif)
      (convImg env image0) (kb * 1024) it dimension_reductions none p hp).1
  · intro f0
    exact (scaleLoop_factor_count env (pres && (convImg env image0).hasExif)
      (convImg env image0) (kb * 1024) it dimension_reductions none f0
      (by decide)).1
  · obtain ⟨k, hk, hke⟩ := scaleLoop_scaleEnds env
      (pres && (convImg env image0).hasExif) (convImg env image0) (kb * 1024)
      it dimension_reductions none
    exact ⟨k, by simpa [dimension_reductions] using hk, hke⟩
  · intro ex w f t low high fuel best
    exact qualityLoop_len env ex w f t fuel low high best
  · intro ex w f t low high fuel best hle
    rw [qualityLoop]
    by_cases ht : tightOkB (qProbe env ex w f low high).bytes.length t = true
    · simp [ht]
    · simp only [ht, if_false, Bool.false_eq_true]
      have hstop : (qNext t (qProbe env ex w f low high) low high).2 ≤
          (qNext t (qProbe env ex w f low high) low high).1 := by
        rw [qNext]
        by_cases hsz : t < (qProbe env ex w f low high).bytes.length
        · simp only [hsz, if_true]
          omega
        · simp only [hsz, if_false]
          omega
      simp [hstop]

/-- Witness for C7: the probe budget holds on a concrete run, and a quality
loop entered with `low >= high` performs exactly one more probe. -/
theorem c7_witness :
    (probesOf (compress_image_to_kb env3 imgRGB 1 false 1).trace).length ≤
      6 * 1 ∧
    (qualityLoop env3 false imgRGB 1 0 95 10 (0 + 1) none).2.length ≤ 1 :=
  ⟨(c7_probe_budget_and_termination env3 imgRGB 1 false 1).1,
   (c7_probe_budget_and_termination env3 imgRGB 1 false 1).2.2.2.2.2.2
     false imgRGB 1 0 95 10 0 none (by decide)⟩

/-- C4 counterexample: the claim asserts every quality handed to the encoder
lies in [10, 95], including the fixed-quality path's caller-clamped quality.
But `compress_single_image` clamps with `max(10, min(100, quality))`, so a
requested quality of 100 is passed to the encoder unchanged: with an encoder
that records the quality it received, the output byte is 100, and 100 > 95. -/
theorem c4_counterexample_quality_100 :
    clampQuality 100 = 100 ∧
    (compress_single_image_quality_path envQ imgRGB 100 false).bytes =
      [100] ∧
    ¬((100 : Int) ≤ 95) := by
  refine ⟨by decide, by decide, by decide⟩

/-- C4 amended: in `compress_image_to_kb` every binary-search probe quality
lies in [10, 95] (low and high start at 10 and 95) and the fallback encodes at
quality 10; the fixed-quality path's caller clamp, however, is
`max(10, min(100, q))`, so that path only guarantees a quality in [10, 100]. -/
theorem c4_amended_quality_ranges (env : PILEnv) (image0 : Img) (kb : Nat)
    (pres : Bool) (it : Nat) :
    (∀ p ∈ probesOf (compress_image_to_kb env image0 kb pres it).trace,
      10 ≤ p.quality ∧ p.quality ≤ 95) ∧
    ((compress_image_to_kb env image0 kb pres it).fellback = true →
      (compress_image_to_kb env image0 kb pres it).stats.quality_used = 10) ∧
    (∀ q : Int, 10 ≤ clampQuality q ∧ clampQuality q ≤ 100) := by
  have htr := kb_trace_eq env image0 kb pres it
  refine ⟨?_, ?_, ?_⟩
  · intro p hp
    rw [htr] at hp
    exact (scaleLoop_probes env (pres && (convImg env image0).hasExif)
      (convImg env image0) (kb * 1024) it dimension_reductions none p hp).2.2.2.2
  · intro hfb
    rcases kb_cases env image0 kb pres it with
      ⟨b, s, hout, hres⟩ | ⟨bb, bs, hout, hnebb, hres⟩ | ⟨houts, hres⟩
    · rw [hres] at hfb
      cases hfb
    · rw [hres] at hfb
      cases hfb
    · rw [hres]
      rfl
  · intro q
    rw [clampQuality]
    omega

/-- Witness for the amended C4: a concrete probe quality within [10, 95], a
concrete fallback run recording quality 10, and the clamp bounds at a
concrete request. -/
theorem c4_witness :
    (10 ≤ (⟨imgRGB, 1, 52, false, []⟩ : Probe).quality ∧
      (⟨imgRGB, 1, 52, false, []⟩ : Probe).quality ≤ 95) ∧
    (compress_image_to_kb envNil imgRGB 1 false 1).stats.quality_used = 10 ∧
    (10 ≤ clampQuality 7 ∧ clampQuality 7 ≤ 100) :=
  ⟨(c4_amended_quality_ranges envNil imgRGB 1 false 1).1
      ⟨imgRGB, 1, 52, false, []⟩ (by decide),
   (c4_amended_quality_ranges envNil imgRGB 1 false 1).2.1 (by decide),
   (c4_amended_quality_ranges envNil imgRGB 1 false 1).2.2 7⟩

theorem convertRGB_dims (env : PILEnv) (i : Img) :
    (convertRGB env i).width = i.width ∧ (convertRGB env i).height = i.height :=
  ⟨rfl, rfl⟩

theorem convImg_dims (env : PILEnv) (i : Img) :
    (convImg env i).width = i.width ∧ (convImg env i).height = i.height := by
  rw [convImg]
  by_cases hc : needsConvert i = true
  · simp [hc, convertRGB]
  · simp [hc]

theorem compress_image_dims (env : PILEnv) (image : Img) (maxD : Nat)
    (q : Int) (pres : Bool)
    (hr : min (ratDiv (maxD : ℚ) (image.width : ℚ))
      (ratDiv (maxD : ℚ) (image.height : ℚ)) < 1) :
    (compress_image env image maxD q pres).stats.final_width =
      intFloor (ratMul (image.width : ℚ)
        (min (ratDiv (maxD : ℚ) (image.width : ℚ))
          (ratDiv (maxD : ℚ) (image.height : ℚ)))) ∧
    (compress_image env image maxD q pres).stats.final_height =
      intFloor (ratMul (image.height : ℚ)
        (min (ratDiv (maxD : ℚ) (image.width : ℚ))
          (ratDiv (maxD : ℚ) (image.height : ℚ)))) := by
  rw [compress_image]
  simp only [hr, if_true]
  by_cases hc : needsConvert (resizeImg env image
      (intFloor (ratMul (image.width : ℚ)
        (min (ratDiv (maxD : ℚ) (image.width : ℚ))
          (ratDiv (maxD : ℚ) (image.height : ℚ)))))
      (intFloor (ratMul (image.height : ℚ)
        (min (ratDiv (maxD : ℚ) (image.width : ℚ))
          (ratDiv (maxD : ℚ) (image.height : ℚ)))))) = true
  · simp only [hc, if_true]
    exact ⟨rfl, rfl⟩
  · simp only [hc, if_false, Bool.false_eq_true]
    exact ⟨rfl, rfl⟩

/-- C3 counterexample: the claim says resampled dimensions are
`round(origDim * factor)`.  On a 10x3 image with `max_dimension = 9` the
ratio is 9/10 and the resampled height is `int(3 * 0.9) = int(2.7) = 2`,
whereas rounding gives 3: Python `int()` truncates, it does not round. -/
theorem c3_counterexample_truncation_not_round :
    (compress_image envQ imgL 9 85 false).stats.final_height ≠
      (specRound ((3 : ℚ) * (9 / 10))).toNat := by
  have h1 : (compress_image envQ imgL 9 85 false).stats.final_height = 2 := by
    decide
  have h2 : specRound ((3 : ℚ) * (9 / 10)) = 3 := by
    rw [specRound]
    norm_num [round_eq]
  rw [h1, h2]
  decide

/-- C3 amended: for every resampling step in both compressors the new width
and height are the Python `int()` truncation — the floor, for these
nonnegative products — of `originalDimension * factor`, not the rounding the
claim states: in `compress_image` when
`ratio = min(maxDim/width, maxDim/height)` is below 1, and in
`compress_image_to_kb` for every probe at a dimension factor below 1 (probes
at factor 1 keep the original dimensions). -/
theorem c3_amended_resample_dims_floor (env : PILEnv) :
    (∀ (image : Img) (maxD : Nat) (q : Int) (pres : Bool),
      min ((maxD : ℚ) / (image.width : ℚ)) ((maxD : ℚ) / (image.height : ℚ)) <
        1 →
      (compress_image env image maxD q pres).stats.final_width =
        intFloor ((image.width : ℚ) *
          min ((maxD : ℚ) / (image.width : ℚ))
            ((maxD : ℚ) / (image.height : ℚ))) ∧
      (compress_image env image maxD q pres).stats.final_height =
        intFloor ((image.height : ℚ) *
          min ((maxD : ℚ) / (image.width : ℚ))
            ((maxD : ℚ) / (image.height : ℚ)))) ∧
    (∀ (image0 : Img) (kb : Nat) (pres : Bool) (it : Nat),
      ∀ p ∈ probesOf (compress_image_to_kb env image0 kb pres it).trace,
        (p.factor < 1 →
          p.img.width = intFloor ((image0.width : ℚ) * p.factor) ∧
          p.img.height = intFloor ((image0.height : ℚ) * p.factor)) ∧
        (¬p.factor < 1 →
          p.img.width = image0.width ∧ p.img.height = image0.height)) := by
  constructor
  · intro image maxD q pres hr
    have e1 : ratDiv (maxD : ℚ) (image.width : ℚ) =
        (maxD : ℚ) / (image.width : ℚ) :=
      ratDiv_eq _ _ (Nat.cast_nonneg _)
    have e2 : ratDiv (maxD : ℚ) (image.height : ℚ) =
        (maxD : ℚ) / (image.height : ℚ) :=
      ratDiv_eq _ _ (Nat.cast_nonneg _)
    have hr' : min (ratDiv (maxD : ℚ) (image.width : ℚ))
        (ratDiv (maxD : ℚ) (image.height : ℚ)) < 1 := by
      rw [e1, e2]
      exact hr
    obtain ⟨hw, hh⟩ := compress_image_dims env image maxD q pres hr'
    rw [hw, hh, ratMul_eq, ratMul_eq, e1, e2]
    exact ⟨rfl, rfl⟩
  · intro image0 kb pres it p hp
    have htr := kb_trace_eq env image0 kb pres it
    rw [htr] at hp
    obtain ⟨_, _, himg, _, _, _⟩ := scaleLoop_probes env
      (pres && (convImg env image0).hasExif) (convImg env image0) (kb * 1024)
      it dimension_reductions none p hp
    obtain ⟨hcw, hch⟩ := convImg_dims env image0
    constructor
    · intro hf
      rw [himg, workingImg]
      simp only [hf, if_true]
      rw [resizeImg]
      constructor
      · show intFloor (ratMul ((convImg env image0).width : ℚ) p.factor) = _
        rw [hcw, ratMul_eq]
      · show intFloor (ratMul ((convImg env image0).height : ℚ) p.factor) = _
        rw [hch, ratMul_eq]
    · intro hf
      rw [himg, workingImg]
      simp only [hf, if_false]
      exact ⟨hcw, hch⟩

/-- Witness for the amended C3: the 10x3 image with `max_dimension = 9` is
resized to 9x2 (floors of 9.0 and 2.7), and a concrete probe at factor 0.9
has floor dimensions. -/
theorem c3_witness :
    (compress_image envQ imgL 9 85 false).stats.final_width =
      intFloor ((imgL.width : ℚ) *
        min ((9 : ℚ) / (imgL.width : ℚ)) ((9 : ℚ) / (imgL.height : ℚ))) ∧
    (compress_image envQ imgL 9 85 false).stats.final_height =
      intFloor ((imgL.height : ℚ) *
        min ((9 : ℚ) / (imgL.width : ℚ)) ((9 : ℚ) / (imgL.height : ℚ))) :=
  (c3_amended_resample_dims_floor envQ).1 imgL 9 85 false
    (by norm_num [imgL])

/-- C8 counterexample: the claim says the image handed to the JPEG encoder is
always in a 3-channel mode, for every original color mode.  But only RGBA and
palette images are converted: a greyscale (`L`, single-channel) image reaches
the encoder still in mode `L`, which is not a 3-channel mode. -/
theorem c8_counterexample_L_not_converted :
    (compress_image env1 imgL 3000 85 false).encodedImg.mode = "L" ∧
    threeChannelMode "L" = false := by
  exact ⟨by decide, by decide⟩

/-- C8 amended: both compressors convert exactly the RGBA and palette (`P`)
modes to RGB before encoding; every other mode is handed to the encoder
unchanged.  In `compress_image` the encoded image's mode is RGB iff the input
was RGBA/P, else the input's mode; in `compress_image_to_kb` every probe's
working image has mode RGB iff the input was RGBA/P, else the input's
mode. -/
theorem c8_amended_mode_conversion (env : PILEnv) (image : Img) (maxD : Nat)
    (q : Int) (pres : Bool) (image0 : Img) (kb : Nat) (pres2 : Bool)
    (it : Nat) :
    (compress_image env image maxD q pres).encodedImg.mode =
      (if needsConvert image then "RGB" else image.mode) ∧
    (∀ p ∈ probesOf (compress_image_to_kb env image0 kb pres2 it).trace,
      p.img.mode = (if needsConvert image0 then "RGB" else image0.mode)) := by
  constructor
  · rw [compress_image]
    by_cases hr : min (ratDiv (maxD : ℚ) (image.width : ℚ))
        (ratDiv (maxD : ℚ) (image.height : ℚ)) < 1
    · simp only [hr, if_true]
      by_cases hc : needsConvert (resizeImg env image
          (intFloor (ratMul (image.width : ℚ)
            (min (ratDiv (maxD : ℚ) (image.width : ℚ))
              (ratDiv (maxD : ℚ) (image.height : ℚ)))))
          (intFloor (ratMul (image.height : ℚ)
            (min (ratDiv (maxD : ℚ) (image.width : ℚ))
              (ratDiv (maxD : ℚ) (image.height : ℚ)))))) = true
      · have hc' : needsConvert image = true := hc
        simp only [hc, hc', if_true]
        rfl
      · have hc' : needsConvert image = false := by
          rw [← Bool.not_eq_true]
          exact hc
        simp only [hc, hc', if_false, Bool.false_eq_true]
        rfl
    · simp only [hr, if_false]
      by_cases hc : needsConvert image = true
      · simp only [hc, if_true]
        rfl
      · simp only [hc, if_false, Bool.false_eq_true]
  · intro p hp
    have htr := kb_trace_eq env image0 kb pres2 it
    rw [htr] at hp
    obtain ⟨_, _, himg, _, _, _⟩ := scaleLoop_probes env
      (pres2 && (convImg env image0).hasExif) (convImg env image0) (kb * 1024)
      it dimension_reductions none p hp
    have hmode : (workingImg env (convImg env image0) p.factor).mode =
        (convImg env image0).mode := by
      rw [workingImg]
      by_cases hf : p.factor < 1
      · simp only [hf, if_true]
        rfl
      · simp only [hf, if_false]
    have hcmode : (convImg env image0).mode =
        (if needsConvert image0 then "RGB" else image0.mode) := by
      rw [convImg]
      by_cases hc : needsConvert image0 = true
      · simp only [hc, if_true]
        rfl
      · simp only [hc, if_false, Bool.false_eq_true]
    rw [himg, hmode, hcmode]

/-- Witness for the amended C8: an RGBA image is converted (its first probe's
working image is in RGB mode) and an unconverted RGB image keeps its mode in
the fixed-quality path. -/
theorem c8_witness :
    (compress_image env1 imgRGB 3000 85 false).encodedImg.mode =
      (if needsConvert imgRGB then "RGB" else imgRGB.mode) ∧
    (⟨⟨4, 4, "RGB", 10, false⟩, 1, 52, false, [0]⟩ : Probe).img.mode =
      (if needsConvert imgRGBA then "RGB" else imgRGBA.mode) :=
  ⟨(c8_amended_mode_conversion env1 imgRGB 3000 85 false imgRGBA 0 false 1).1,
   (c8_amended_mode_conversion env1 imgRGB 3000 85 false imgRGBA 0 false 1).2
     ⟨⟨4, 4, "RGB", 10, false⟩, 1, 52, false, [0]⟩ (by decide)⟩

/-- C5 counterexample: the claim says the orientation normalizer never raises
to its caller, even when the EXIF reader itself fails.  But the guard on
line 34 calls `image._getexif()` outside the `try` block, so a failing EXIF
reader propagates its exception to the caller instead of returning the image
unmodified. -/
theorem c5_counterexample_reader_failure_propagates :
    process_image_orientation env1
      ⟨imgRGB, true, Except.error "exif read failed", false⟩ =
      Except.error "exif read failed" := rfl

/-- C5 amended: `process_image_orientation` never raises provided the initial
`_getexif()` call (made outside the `try` on line 34) does not raise — any
failure of the orientation extraction inside the `try` block is caught,
logged, and the input image itself is returned unmodified (likewise when the
reader yields a falsy result); but when that initial call raises, the
exception propagates to the caller. -/
theorem c5_amended_no_raise_iff_reader_ok (env : PILEnv) (e : ExifImg) :
    ((∀ m, e.getexif ≠ Except.error m) →
      ∃ i, process_image_orientation env e = Except.ok i) ∧
    (∀ d, e.getexif = Except.ok (some d) → e.innerFails = true →
      process_image_orientation env e = Except.ok e.img) ∧
    (e.getexif = Except.ok none →
      process_image_orientation env e = Except.ok e.img) ∧
    (∀ m, e.hasGetexif = true → e.getexif = Except.error m →
      process_image_orientation env e = Except.error m) := by
  refine ⟨?_, ?_, ?_, ?_⟩
  · intro hok
    rw [process_image_orientation]
    by_cases hg : e.hasGetexif = true
    · simp only [hg, Bool.not_true, if_false, Bool.false_eq_true]
      rcases hx : e.getexif with m | od
      · exact absurd hx (hok m)
      · rcases od with _ | d
        · exact ⟨e.img, rfl⟩
        · by_cases hif : e.innerFails = true
          · simp only [hif, if_true]
            exact ⟨e.img, rfl⟩
          · simp only [hif, if_false, Bool.false_eq_true]
            exact ⟨_, rfl⟩
    · have hg' : e.hasGetexif = false := by
        rw [← Bool.not_eq_true]
        exact hg
      simp only [hg', Bool.not_false, if_true]
      exact ⟨e.img, rfl⟩
  · intro d hd hif
    rw [process_image_orientation]
    by_cases hg : e.hasGetexif = true
    · simp only [hg, Bool.not_true, if_false, Bool.false_eq_true, hd, hif,
        if_true]
    · have hg' : e.hasGetexif = false := by
        rw [← Bool.not_eq_true]
        exact hg
      simp only [hg', Bool.not_false, if_true]
  · intro hd
    rw [process_image_orientation]
    by_cases hg : e.hasGetexif = true
    · simp only [hg, Bool.not_true, if_false, Bool.false_eq_true, hd]
    · have hg' : e.hasGetexif = false := by
        rw [← Bool.not_eq_true]
        exact hg
      simp only [hg', Bool.not_false, if_true]
  · intro m hg hx
    rw [process_image_orientation]
    simp only [hg, Bool.not_true, if_false, Bool.false_eq_true, hx]

/-- Witness for the amended C5: a run whose EXIF reader succeeds but whose
inner tag processing fails returns exactly the input image, unmodified and
without an exception, and a failing reader propagates its error. -/
theorem c5_witness :
    process_image_orientation env1
      ⟨imgRGB, true, Except.ok (some [(274, 6)]), true⟩ =
        Except.ok imgRGB ∧
    process_image_orientation env1
      ⟨imgRGB, true, Except.ok none, false⟩ = Except.ok imgRGB ∧
    process_image_orientation env1
      ⟨imgRGB, true, Except.error "boom", false⟩ = Except.error "boom" :=
  ⟨(c5_amended_no_raise_iff_reader_ok env1
      ⟨imgRGB, true, Except.ok (some [(274, 6)]), true⟩).2.1
    [(274, 6)] rfl rfl,
   (c5_amended_no_raise_iff_reader_ok env1
      ⟨imgRGB, true, Except.ok none, false⟩).2.2.1 rfl,
   (c5_amended_no_raise_iff_reader_ok env1
      ⟨imgRGB, true, Except.error "boom", false⟩).2.2.2 "boom" rfl rfl⟩

/-- C6: for every image whose orientation tag is readable, the normalizer
applies exactly the mapping of the source with canvas expansion: tag 3 gives
a 180-degree rotation (dimensions preserved), 6 a 270-degree rotation and 8 a
90-degree rotation (both swap width and height), and every other value —
including 1, 2, 4, 5, 7, out-of-range values, and an absent tag — leaves the
image unchanged. -/
theorem c6_orientation_mapping (env : PILEnv) (e : ExifImg)
    (d : List (Nat × Nat)) (h1 : e.hasGetexif = true)
    (h2 : e.getexif = Except.ok (some d)) (h3 : e.innerFails = false) :
    process_image_orientation env e =
      Except.ok (applyOrientation env e.img (d.lookup orientationTag)) ∧
    (d.lookup orientationTag = some 3 →
      applyOrientation env e.img (d.lookup orientationTag) =
        rotate180 env e.img) ∧
    (d.lookup orientationTag = some 6 →
      applyOrientation env e.img (d.lookup orientationTag) =
        rotate270 env e.img) ∧
    (d.lookup orientationTag = some 8 →
      applyOrientation env e.img (d.lookup orientationTag) =
        rotate90 env e.img) ∧
    (∀ v, d.lookup orientationTag = some v → v ≠ 3 → v ≠ 6 → v ≠ 8 →
      applyOrientation env e.img (d.lookup orientationTag) = e.img) ∧
    (d.lookup orientationTag = none →
      applyOrientation env e.img (d.lookup orientationTag) = e.img) ∧
    (∀ i, (rotate180 env i).width = i.width ∧
      (rotate180 env i).height = i.height) ∧
    (∀ i, (rotate270 env i).width = i.height ∧
      (rotate270 env i).height = i.width) ∧
    (∀ i, (rotate90 env i).width = i.height ∧
      (rotate90 env i).height = i.width) := by
  refine ⟨?_, ?_, ?_, ?_, ?_, ?_, fun i => ⟨rfl, rfl⟩, fun i => ⟨rfl, rfl⟩,
    fun i => ⟨rfl, rfl⟩⟩
  · rw [process_image_orientation]
    simp only [h1, Bool.not_true, if_false, Bool.false_eq_true, h2, h3]
  · intro hv
    rw [hv, applyOrientation]
    simp
  · intro hv
    rw [hv, applyOrientation]
    simp
  · intro hv
    rw [hv, applyOrientation]
    simp
  · intro v hv h3v h6v h8v
    rw [hv, applyOrientation]
    simp [h3v, h6v, h8v]
  · intro hv
    rw [hv, applyOrientation]

/-- Witness for C6 at a concrete input: a tag dictionary mapping the
orientation key 274 to 6 yields the 270-degree rotation, whose dimensions
swap. -/
theorem c6_witness :
    process_image_orientation env1
      ⟨imgL, true, Except.ok (some [(274, 6)]), false⟩ =
      Except.ok (applyOrientation env1 imgL
        (([(274, 6)] : List (Nat × Nat)).lookup orientationTag)) ∧
    applyOrientation env1 imgL
        (([(274, 6)] : List (Nat × Nat)).lookup orientationTag) =
      rotate270 env1 imgL :=
  ⟨(c6_orientation_mapping env1 ⟨imgL, true, Except.ok (some [(274, 6)]), false⟩
      [(274, 6)] rfl rfl rfl).1,
   (c6_orientation_mapping env1 ⟨imgL, true, Except.ok (some [(274, 6)]), false⟩
      [(274, 6)] rfl rfl rfl).2.2.1 (by decide)⟩

/-! ## Heap frame lemmas -/

theorem alloc_get_lt (h : Heap) (i : Img) (r : Nat) (hr : r < h.next) :
    (h.alloc i).2.get r = h.get r := by
  show (if r = h.next then i else h.get r) = h.get r
  rw [if_neg (Nat.ne_of_lt hr)]

theorem alloc_next (h : Heap) (i : Img) : h.next ≤ (h.alloc i).2.next :=
  Nat.le_succ _

theorem scaleLoopH_frame (env : PILEnv) (ex : Bool) (imgRef : Nat)
    (target it : Nat) :
    ∀ fs (h : Heap) best,
      h.next ≤ (scaleLoopH env ex imgRef target it fs h best).2.next ∧
      ∀ r < h.next,
        (scaleLoopH env ex imgRef target it fs h best).2.get r = h.get r := by
  intro fs
  induction fs with
  | nil =>
    intro h best
    rw [scaleLoopH]
    exact ⟨Nat.le_refl _, fun r _ => rfl⟩
  | cons f fs ih =>
    intro h best
    rw [scaleLoopH]
    rcases hql : qualityLoop env ex
        ((Heap.alloc h (workingImg env (h.get imgRef) f)).2.get
          (Heap.alloc h (workingImg env (h.get imgRef) f)).1)
        f target 10 95 it best with ⟨out, tr⟩
    have halloc_next := alloc_next h (workingImg env (h.get imgRef) f)
    have halloc_get := fun r (hr : r < h.next) =>
      alloc_get_lt h (workingImg env (h.get imgRef) f) r hr
    cases out with
    | ret b0 s0 => exact ⟨halloc_next, halloc_get⟩
    | cont best1 =>
      cases best1 with
      | none =>
        obtain ⟨ihn, ihg⟩ := ih (Heap.alloc h (workingImg env (h.get imgRef) f)).2 none
        refine ⟨le_trans halloc_next ihn, ?_⟩
        intro r hr
        rw [ihg r (lt_of_lt_of_le hr halloc_next)]
        exact halloc_get r hr
      | some c1 =>
        obtain ⟨bb1, bs1⟩ := c1
        by_cases hrel : (!bb1.isEmpty && relaxedOkB bs1 target) = true
        · simp only [hrel, if_true]
          exact ⟨halloc_next, halloc_get⟩
        · simp only [hrel, if_false, Bool.false_eq_true]
          obtain ⟨ihn, ihg⟩ := ih (Heap.alloc h (workingImg env (h.get imgRef) f)).2
            (some (bb1, bs1))
          refine ⟨le_trans halloc_next ihn, ?_⟩
          intro r hr
          rw [ihg r (lt_of_lt_of_le hr halloc_next)]
          exact halloc_get r hr

/-- C9: neither compressor mutates the caller's image object.  In the
store-passing embedding every PIL operation the source performs (`resize`,
`convert`, `copy`) allocates a fresh object and no existing reference is ever
written, so after either `compress_image` or `compress_image_to_kb` returns,
every pre-existing reference — the caller's image in particular — still holds
its original pixel data, width, height, and mode. -/
theorem c9_no_mutation_of_caller_image (env : PILEnv) (h : Heap)
    (r r' : Nat) (maxD : Nat) (q : Int) (pres : Bool) (kb : Nat)
    (pres2 : Bool) (it : Nat) (hr : r' < h.next) :
    (compress_imageH env h r maxD q pres).2.get r' = h.get r' ∧
    (compress_image_to_kbH env h r kb pres2 it).2.get r' = h.get r' := by
  constructor
  · rw [compress_imageH]
    by_cases hb : min (ratDiv (maxD : ℚ) ((h.get r).width : ℚ))
        (ratDiv (maxD : ℚ) ((h.get r).height : ℚ)) < 1
    · simp only [hb, if_true]
      set h1 := (Heap.alloc h (resizeImg env (h.get r)
        (intFloor (ratMul ((h.get r).width : ℚ)
          (min (ratDiv (maxD : ℚ) ((h.get r).width : ℚ))
            (ratDiv (maxD : ℚ) ((h.get r).height : ℚ)))))
        (intFloor (ratMul ((h.get r).height : ℚ)
          (min (ratDiv (maxD : ℚ) ((h.get r).width : ℚ))
            (ratDiv (maxD : ℚ) ((h.get r).height : ℚ))))))).2 with hh1
      have hget1 : h1.get r' = h.get r' := alloc_get_lt h _ r' hr
      have hnext1 : r' < h1.next := lt_of_lt_of_le hr (alloc_next h _)
      by_cases hc : needsConvert (h1.get (Heap.alloc h (resizeImg env (h.get r)
          (intFloor (ratMul ((h.get r).width : ℚ)
            (min (ratDiv (maxD : ℚ) ((h.get r).width : ℚ))
              (ratDiv (maxD : ℚ) ((h.get r).height : ℚ)))))
          (intFloor (ratMul ((h.get r).height : ℚ)
            (min (ratDiv (maxD : ℚ) ((h.get r).width : ℚ))
              (ratDiv (maxD : ℚ) ((h.get r).height : ℚ))))))).1) = true
      · simp only [hc, if_true]
        rw [alloc_get_lt h1 _ r' hnext1]
        exact hget1
      · simp only [hc, if_false, Bool.false_eq_true]
        exact hget1
    · simp only [hb, if_false]
      by_cases hc : needsConvert (h.get r) = true
      · simp only [hc, if_true]
        exact alloc_get_lt h _ r' hr
      · simp only [hc, if_false, Bool.false_eq_true]
  · rw [compress_image_to_kbH]
    by_cases hc : needsConvert (h.get r) = true
    · simp only [hc, if_true]
      have hget1 : (Heap.alloc h (convertRGB env (h.get r))).2.get r' =
          h.get r' := alloc_get_lt h _ r' hr
      have hnext1 : r' < (Heap.alloc h (convertRGB env (h.get r))).2.next :=
        lt_of_lt_of_le hr (alloc_next h _)
      obtain ⟨_, hframe⟩ := scaleLoopH_frame env
        ((pres2 && ((Heap.alloc h (convertRGB env (h.get r))).2.get
          (Heap.alloc h (convertRGB env (h.get r))).1).hasExif))
        (Heap.alloc h (convertRGB env (h.get r))).1 (kb * 1024) it
        dimension_reductions (Heap.alloc h (convertRGB env (h.get r))).2 none
      rcases hsl : scaleLoopH env
          ((pres2 && ((Heap.alloc h (convertRGB env (h.get r))).2.get
            (Heap.alloc h (convertRGB env (h.get r))).1).hasExif))
          (Heap.alloc h (convertRGB env (h.get r))).1 (kb * 1024) it
          dimension_reductions (Heap.alloc h (convertRGB env (h.get r))).2 none
        with ⟨out, h2⟩
      rw [hsl] at hframe
      have hg2 : h2.get r' = h.get r' := by
        rw [hframe r' hnext1]
        exact hget1
      cases out with
      | returned b s => exact hg2
      | exhausted best =>
        cases best with
        | none => exact hg2
        | some c =>
          obtain ⟨bb, bs⟩ := c
          by_cases hbb : (!bb.isEmpty) = true
          · simp only [hbb, if_true]
            exact hg2
          · simp only [hbb, if_false, Bool.false_eq_true]
            exact hg2
    · simp only [hc, if_false, Bool.false_eq_true]
      obtain ⟨_, hframe⟩ := scaleLoopH_frame env
        (pres2 && (h.get r).hasExif) r (kb * 1024) it dimension_reductions h
        none
      rcases hsl : scaleLoopH env (pres2 && (h.get r).hasExif) r (kb * 1024)
          it dimension_reductions h none with ⟨out, h2⟩
      rw [hsl] at hframe
      have hg2 : h2.get r' = h.get r' := hframe r' hr
      cases out with
      | returned b s => exact hg2
      | exhausted best =>
        cases best with
        | none => exact hg2
        | some c =>
          obtain ⟨bb, bs⟩ := c
          by_cases hbb : (!bb.isEmpty) = true
          · simp only [hbb, if_true]
            exact hg2
          · simp only [hbb, if_false, Bool.false_eq_true]
            exact hg2

/-- Witness for C9: on a concrete store the caller's reference still holds
the original image after both compressors run. -/
theorem c9_witness :
    (compress_imageH env1 heap0 0 3000 85 false).2.get 0 = heap0.get 0 ∧
    (compress_image_to_kbH env1 heap0 0 1 false 1).2.get 0 = heap0.get 0 :=
  c9_no_mutation_of_caller_image env1 heap0 0 0 3000 85 false 1 false 1
    (by decide)

end CompressImg
